import Mathlib

/-!
# checkcert: endpoint parsing, TLS probing and certificate interpretation

A shallow embedding of `checkcert.go` (package `checkcert`): the descriptor
parser `ParseDomainPortHost`, the prober `callHost`, the pipeline `CheckHost`
and the orchestrator `CheckHostsParallel`, together with the parts of the Go
standard library they call (`strings.Split`, `strconv.Atoi`, `fmt` with `%d`,
`time.Time.Sub`, `time.Duration.Hours`, float64 division and conversion).
-/

namespace Checkcert

/-! ## Strings, machine integers, run-time failures -/

/-- A Go string, as its sequence of characters. Every byte the code inspects
(`':'`, `'+'`, `'-'`, `'0'`..`'9'`) is ASCII, and in UTF-8 an ASCII byte only
ever encodes that ASCII character. -/
abbrev Str := List Char

/-- Width of the Go type `int` on the target (`strconv.IntSize`). -/
inductive IntSize where
  | w32
  | w64
  deriving DecidableEq, Repr

/-- Number of bits of `int`. -/
def IntSize.bits : IntSize → Nat
  | .w32 => 32
  | .w64 => 64

/-- The two error kinds of `strconv`: `ErrSyntax` and `ErrRange`. -/
inductive NumError where
  | ErrSyntax
  | ErrRange
  deriving DecidableEq, Repr

/-- A Go run-time panic. A panic in any goroutine ends the whole process. -/
inductive Panic where
  | indexOutOfRange
  | nilDereference
  deriving DecidableEq, Repr

deriving instance DecidableEq for Except

/-- Slice indexing `xs[i]`, which panics when `i` is out of range. -/
def index {α : Type} (xs : List α) (i : Nat) : Except Panic α :=
  match xs.get? i with
  | some x => .ok x
  | none => .error .indexOutOfRange

/-! ## `strings.Split(s, ":")` -/

/-- `strings.Split(s, ":")`: the fields of `s` between the colons. The Go loop
cuts at each index of the separator and keeps the remainder as the last
field, so a string with `k` colons yields `k + 1` fields. -/
def Split : Str → List Str
  | [] => [[]]
  | c :: cs =>
    if c = ':' then [] :: Split cs
    else
      match Split cs with
      | [] => [[c]]
      | f :: fs => (c :: f) :: fs

/-! ## `strconv.Atoi` -/

/-- The digit test of `strconv.ParseUint` for base 10: bytes `'0'..'9'` have
the value `c - '0'`; letters have a value of 10 or more and every other byte
has none, and both are syntax errors in base 10. -/
def digitValue (c : Char) : Option Nat :=
  if '0' ≤ c ∧ c ≤ '9' then some (c.toNat - '0'.toNat) else none

/-- The constant `maxUint64`. -/
def maxUint64 : Nat := 2 ^ 64 - 1

/-- The loop of `strconv.ParseUint(s, 10, 0)` on `uint64` arithmetic:
`cutoff = maxUint64/10 + 1`, and `n1 < n || n1 > maxVal` detects the
overflow of `n + d`. -/
def parseUintLoop (maxVal : Nat) : Str → Nat → Except NumError Nat
  | [], n => .ok n
  | c :: cs, n =>
    match digitValue c with
    | none => .error .ErrSyntax
    | some d =>
      if n ≥ maxUint64 / 10 + 1 then .error .ErrRange
      else
        let n10 := (n * 10) % 2 ^ 64
        let n1 := (n10 + d) % 2 ^ 64
        if n1 < n10 ∨ n1 > maxVal then .error .ErrRange
        else parseUintLoop maxVal cs n1

/-- `strconv.ParseUint(s, 10, 0)`: bit size 0 stands for `IntSize`. -/
def ParseUint (w : IntSize) (s : Str) : Except NumError Nat :=
  if s = [] then .error .ErrSyntax
  else parseUintLoop (2 ^ w.bits - 1) s 0

/-- Conversion `int64(un)` of a `uint64`, and the wrap-around of `int64`
arithmetic. -/
def toInt64 (x : Int) : Int := (x + 2 ^ 63) % 2 ^ 64 - 2 ^ 63

/-- `strconv.ParseInt(s, 10, 0)`: an optional sign, then `ParseUint`, then the
range check against `cutoff = 1 << (IntSize - 1)`. The value Go returns next
to a non-nil error is dropped: a syntax error of `ParseUint` is returned at
once, and its range error comes with the value `maxVal`, which fails the
range check here, so it ends as a range error as well. -/
def ParseInt (w : IntSize) (s : Str) : Except NumError Int :=
  match s with
  | [] => .error .ErrSyntax
  | c :: cs =>
    let neg := decide (c = '-')
    let body := if c = '+' ∨ c = '-' then cs else s
    match ParseUint w body with
    | .error e => .error e
    | .ok un =>
      let cutoff := 2 ^ (w.bits - 1)
      if ¬ neg ∧ un ≥ cutoff then .error .ErrRange
      else if neg ∧ un > cutoff then .error .ErrRange
      else
        let n := toInt64 un
        .ok (if neg then toInt64 (-n) else n)

/-- `strconv.Atoi(s)`, which the library documents as
`ParseInt(s, 10, 0)` converted to `int` (its fast path for short inputs
computes the same result). -/
def Atoi (w : IntSize) (s : Str) : Except NumError Int :=
  ParseInt w s

/-! ## `ParseDomainPortHost` -/

/-- `ParseDomainPortHost(info)`: the results `(domain, port, host)`. -/
def ParseDomainPortHost (w : IntSize) (info : Str) : Except Panic (Str × Int × Str) := do
  let splt := Split info
  let port ←
    if splt.length > 1 then do
      let f ← index splt 1
      match Atoi w f with
      | .ok portn => pure portn
      | .error _ => pure (443 : Int)
    else pure (443 : Int)
  let domain ← index splt 0
  let host ← if splt.length > 2 then index splt 2 else pure domain
  pure (domain, port, host)

/-! ## `fmt` with the verb `%d` -/

/-- The decimal digit `byte('0' + d)`, for a digit value `d` below 10 (the
only values the digit loop produces). -/
def digitChar (d : Nat) : Char :=
  match d with
  | 0 => '0' | 1 => '1' | 2 => '2' | 3 => '3' | 4 => '4'
  | 5 => '5' | 6 => '6' | 7 => '7' | 8 => '8' | _ => '9'

/-- The digit loop of `fmt.fmtInteger` in base 10: digits are written from the
right, `for u >= 10 { next := u / 10; buf[i] = '0' + u - next*10; u = next }`,
then the leading digit. -/
def fmtDigits : Nat → Nat → Str → Str
  | 0, u, acc => digitChar u :: acc
  | fuel + 1, u, acc =>
    if u ≥ 10 then fmtDigits fuel (u / 10) (digitChar (u % 10) :: acc)
    else digitChar u :: acc

/-- The verb `%d` applied to an `int`. -/
def FormatInt (n : Int) : Str :=
  if n < 0 then '-' :: fmtDigits n.natAbs n.natAbs [] else fmtDigits n.natAbs n.natAbs []

/-! ## float64 arithmetic

Only finite values in the normal range occur in `checkcert`: magnitudes are
zero or lie between `2^-42` and `2^22`. A float64 value is kept as the exact
fraction it denotes and every operation rounds the exact result to 53
significant bits, to nearest, ties to even. -/

/-- Binary logarithm, rounded down, by halving. -/
def log2Aux : Nat → Nat → Nat
  | 0, _ => 0
  | f + 1, n => if n ≥ 2 then log2Aux f (n / 2) + 1 else 0

/-- `ilog2 n = ⌊log₂ n⌋` for `n ≥ 1`. -/
def ilog2 (n : Nat) : Nat := log2Aux n n

/-- Round the fraction `p / q` (with `q > 0`) to the nearest number with a
53-bit significand, ties to even. The result is the fraction
`(m * 2^L) / 2^t`: `N` is the quotient scaled to at least 64 bits with the
sticky flag recording a non-zero remainder, `L` the number of low bits to
drop, and `m` the rounded 53-bit significand. -/
def roundNearestEven (p q : Nat) : Nat × Nat :=
  if p = 0 then (0, 1)
  else
    let t := 64 + ilog2 q
    let N := p * 2 ^ t / q
    let sticky := p * 2 ^ t % q ≠ 0
    let L := ilog2 N - 52
    let m0 := N / 2 ^ L
    let r := N % 2 ^ L
    let half := 2 ^ (L - 1)
    let m := if r > half ∨ (r = half ∧ (sticky ∨ m0 % 2 = 1)) then m0 + 1 else m0
    (m * 2 ^ L, 2 ^ t)

/-- A finite float64 value, as the fraction `num / den`. -/
structure F64 where
  num : Int
  den : Nat
  deriving DecidableEq, Repr

/-- Rounding of the exact value `n / d` to float64; rounding to nearest is
symmetric in the sign. -/
def F64.round (n : Int) (d : Nat) : F64 :=
  let r := roundNearestEven n.natAbs d
  ⟨Int.sign n * r.1, r.2⟩

/-- Conversion `float64(i)` of an integer. -/
def F64.ofInt (i : Int) : F64 := F64.round i 1

/-- The float64 sum `x + y`. -/
def F64.add (x y : F64) : F64 :=
  F64.round (x.num * y.den + y.num * x.den) (x.den * y.den)

/-- The float64 quotient `x / y`, for `y` non-zero. -/
def F64.div (x y : F64) : F64 :=
  F64.round (x.num * y.den * Int.sign y.num) (x.den * y.num.natAbs)

/-- The float64 negation `-x`, which is exact. -/
def F64.neg (x : F64) : F64 := ⟨-x.num, x.den⟩

/-- Conversion `int(x)` of a float64: the fraction is discarded (truncation
toward zero). -/
def F64.toInt (x : F64) : Int := Int.tdiv x.num x.den

/-! ## `time` -/

/-- An instant `time.Time`, in nanoseconds on the wall clock. -/
abbrev Time := Int

/-- A `time.Duration`: an `int64` count of nanoseconds. -/
abbrev Duration := Int

/-- The constant `time.Hour`. -/
def Hour : Duration := 60 * 60 * 10 ^ 9

/-- The constant `minDuration`. -/
def minDuration : Duration := -2 ^ 63

/-- The constant `maxDuration`. -/
def maxDuration : Duration := 2 ^ 63 - 1

/-- `t.Sub(u)` on wall-clock readings (a parsed `NotAfter` carries no
monotonic reading): the difference `t - u`, or `maxDuration` /
`minDuration` when it does not fit a `Duration`. -/
def Time.Sub (t u : Time) : Duration :=
  if t - u > maxDuration then maxDuration
  else if t - u < minDuration then minDuration
  else t - u

/-- `d.Hours()`: `hour := d / Hour; nsec := d % Hour;
return float64(hour) + float64(nsec)/(60*60*1e9)`, with the truncated
division and remainder of Go. -/
def Duration.Hours (d : Duration) : F64 :=
  let hour := Int.tdiv d Hour
  let nsec := Int.tmod d Hour
  F64.add (F64.ofInt hour) (F64.div (F64.ofInt nsec) (F64.ofInt (60 * 60 * 10 ^ 9)))

/-! ## Certificates, connections and the network -/

/-- A Go `error` value. -/
structure Error where
  text : String
  deriving DecidableEq, Repr

/-- The fields of `pkix.Name` that `CheckHost` reads into the result. -/
structure Name where
  CommonName : Str
  Organization : List Str
  OrganizationalUnit : List Str
  deriving DecidableEq, Repr

/-- The fields of `x509.Certificate` that `CheckHost` reads. `Version` is the
X.509 version of the certificate. -/
structure Certificate where
  Version : Int
  Subject : Name
  NotBefore : Time
  NotAfter : Time
  DNSNames : List Str
  deriving DecidableEq, Repr

/-- The fields of `tls.ConnectionState` in reach of `CheckHost`: `Version` is
the negotiated protocol version (`0x0303` for TLS 1.2), `TLSUnique` is `none`
for a nil slice. -/
structure ConnectionState where
  Version : Nat
  PeerCertificates : List Certificate
  TLSUnique : Option (List Nat)
  deriving DecidableEq, Repr

/-- A `*tls.Conn`, observed through `ConnectionState()`. -/
structure Conn where
  state : ConnectionState
  deriving DecidableEq, Repr

/-- What one pipeline observes of the outside world: the answers of the
resolver, of the dialer and of the TLS peer, the wall clock when the probe
starts and the time the monotonic clock measures until the result is
published. -/
structure Net where
  LookupHost : Str → Except Error (List Str)
  DialTimeout : Str → Option Error
  Handshake : Str → Str → Option Error
  ConnectionState : Str → Str → ConnectionState
  now : Time
  elapsed : Duration

/-- The record `HostResult`. -/
structure HostResult where
  Host : Str
  ExpireDays : Int
  Err : Option Error
  Issuer : Str
  TLSVersion : Str
  ElapsedTime : Duration
  DNSNames : List Str
  deriving DecidableEq, Repr

/-! ## `callHost` and `CheckHost` -/

/-- `callHost(domain, port, host)`: the named results `(conn, err)`. The
results of `net.LookupHost` and `net.DialTimeout` are assigned to the named
result `err`; the result of `conn.Handshake()` is assigned to the local
`hsErr`, and the bare `return` in its branch returns `conn` and `err` as they
stand. -/
def callHost (net : Net) (domain : Str) (port : Int) (host : Str) :
    Except Panic (Option Conn × Option Error) :=
  match net.LookupHost host with
  | .error err => .ok (none, some err)
  | .ok ip => do
    let ip0 ← index ip 0
    let ipAddressPort := ip0 ++ ':' :: FormatInt port
    match net.DialTimeout ipAddressPort with
    | some err => .ok (none, some err)
    | none =>
      let err : Option Error := none
      let conn : Conn := ⟨net.ConnectionState ipAddressPort domain⟩
      match net.Handshake ipAddressPort domain with
      | some _ => .ok (some conn, err)
      | none => .ok (some conn, err)

/-- The body of `for i, v := range state.PeerCertificates`, from index `i`
on. -/
def certLoop (timeNow : Time) (state : ConnectionState) :
    Nat → List Certificate → HostResult → Except Panic HostResult
  | _, [], result => .ok result
  | 0, v :: rest, result =>
    let result :=
      if v.Version = 0 then { result with TLSVersion := "SSL v3".toList }
      else if v.Version = 1 then { result with TLSVersion := "TLS v1.0".toList }
      else if v.Version = 2 then { result with TLSVersion := "TLS v1.1".toList }
      else if v.Version = 3 then
        let result := { result with TLSVersion := "TLS v1.2".toList }
        if state.TLSUnique = none then { result with TLSVersion := "TLS v1.3".toList }
        else result
      else result
    let result :=
      { result with
        ExpireDays := F64.toInt (F64.div (Duration.Hours (Time.Sub v.NotAfter timeNow))
          (F64.ofInt 24)) }
    let result :=
      if v.DNSNames.length ≥ 1 then { result with DNSNames := v.DNSNames }
      else { result with DNSNames := [v.Subject.CommonName] }
    certLoop timeNow state 1 rest result
  | 1, v :: rest, result => do
    let org ← index v.Subject.Organization 0
    certLoop timeNow state 2 rest { result with Issuer := org }
  | i + 2, _ :: rest, result => certLoop timeNow state (i + 3) rest result

/-- `CheckHost(domain, port, host, res)`: the value sent on `res`. -/
def CheckHost (net : Net) (domain : Str) (port : Int) (host : Str) :
    Except Panic HostResult := do
  let timeNow := net.now
  let full := domain ++ ':' :: (FormatInt port ++ ':' :: host)
  let result : HostResult :=
    { Host := full, ExpireDays := -1, Err := none, Issuer := [], TLSVersion := [],
      ElapsedTime := 0, DNSNames := [] }
  let (conn, err) ← callHost net domain port host
  match err with
  | some e => pure { result with Err := some e, ElapsedTime := net.elapsed }
  | none =>
    match conn with
    | none => throw .nilDereference
    | some c =>
      let state := c.state
      let result ← certLoop timeNow state 0 state.PeerCertificates result
      pure { result with ElapsedTime := net.elapsed }

/-! ## `CheckHostsParallel` -/

/-- The pipelines started by the first loop of `CheckHostsParallel`, numbered
from `i`: each descriptor is parsed and its `CheckHost` goroutine publishes
one result on the channel. A panic in any of them ends the process. -/
def runPipelines (w : IntSize) (world : Nat → Net) :
    Nat → List Str → Except Panic (List (Nat × HostResult))
  | _, [] => .ok []
  | i, dom :: rest => do
    let (domain, port, host) ← ParseDomainPortHost w dom
    let r ← CheckHost (world i) domain port host
    let rs ← runPipelines w world (i + 1) rest
    pure ((i, r) :: rs)

/-- `CheckHostsParallel(hosts...)`: the second loop receives one result per
descriptor, in the order the goroutines complete; `completion i` is the
instant at which goroutine `i` sends its result. -/
def CheckHostsParallel (w : IntSize) (world : Nat → Net) (completion : Nat → Nat)
    (hosts : List Str) : Except Panic (List HostResult) := do
  let published ← runPipelines w world 0 hosts
  let received := published.insertionSort (fun a b => completion a.1 ≤ completion b.1)
  pure (received.map Prod.snd)

/-! ## Definitions that follow the wording of the specification -/

/-- The value of a non-empty string of decimal digits, read left to right. -/
def decimalDigits (ds : Str) : Option Nat :=
  if ds = [] ∨ ¬ ds.all Char.isDigit then none
  else some (ds.foldl (fun n c => n * 10 + (c.toNat - 48)) 0)

/-- An optionally signed decimal numeral, as the specification of the port
field reads it: an optional `+` or `-`, then one or more decimal digits. The
value is returned when the numeral is well formed. -/
def decimalValue (s : Str) : Option Int :=
  match s with
  | '+' :: ds => (decimalDigits ds).map Int.ofNat
  | '-' :: ds => (decimalDigits ds).map (fun n => - Int.ofNat n)
  | ds => (decimalDigits ds).map Int.ofNat

/-- The port the amended rule assigns to a descriptor: the value of the
second field when it is a signed decimal numeral within the range of `int`,
and 443 otherwise. -/
def portRule (w : IntSize) (info : Str) : Int :=
  match (Split info).get? 1 with
  | none => 443
  | some f =>
    match decimalValue f with
    | none => 443
    | some v => if -2 ^ (w.bits - 1) ≤ v ∧ v < 2 ^ (w.bits - 1) then v else 443

/-- The label `target:port:host` of the endpoint a descriptor parses to. -/
def endpointLabel (w : IntSize) (dom : Str) : Str :=
  match ParseDomainPortHost w dom with
  | .ok (domain, port, host) => domain ++ ':' :: (FormatInt port ++ ':' :: host)
  | .error _ => []

/-! ## Sample inputs -/

/-- A resolver answer with one address. -/
def sampleLookup : Str → Except Error (List Str) := fun _ => .ok ["10.0.0.1".toList]

/-- A leaf certificate of X.509 version 3 valid until instant `notAfter`. -/
def sampleLeaf (notAfter : Time) : Certificate :=
  { Version := 3, Subject := ⟨"a.com".toList, [], []⟩, NotBefore := 0, NotAfter := notAfter,
    DNSNames := ["a.com".toList, "www.a.com".toList] }

/-- A leaf certificate without subject alternative names, valid until
instant `notAfter`. -/
def sampleLeafNoSAN (notAfter : Time) : Certificate :=
  { Version := 3, Subject := ⟨"a.com".toList, [], []⟩, NotBefore := 0, NotAfter := notAfter,
    DNSNames := [] }

/-- An issuing certificate with the given organization list. -/
def sampleIssuer (org : List Str) : Certificate :=
  { Version := 3, Subject := ⟨"Example CA".toList, org, []⟩, NotBefore := 0,
    NotAfter := 10 ^ 18, DNSNames := [] }

/-- A world in which resolution and connect succeed, the handshake ends with
`hs` and the connection reports `state`; the probe starts at instant `now`. -/
def sampleNet (hs : Option Error) (state : ConnectionState) (now : Time) : Net :=
  { LookupHost := sampleLookup, DialTimeout := fun _ => none, Handshake := fun _ _ => hs,
    ConnectionState := fun _ _ => state, now := now, elapsed := 5 }

/-- A world in which the resolver fails. -/
def sampleNetUnresolved : Net :=
  { LookupHost := fun _ => .error ⟨"no such host"⟩, DialTimeout := fun _ => none,
    Handshake := fun _ _ => none, ConnectionState := fun _ _ => ⟨0, [], none⟩, now := 0,
    elapsed := 5 }

/-- The result of probing `a.com:443:a.com` in the world `sampleNetUnresolved`. -/
def sampleFailure : HostResult :=
  { Host := "a.com:443:a.com".toList, ExpireDays := -1, Err := some ⟨"no such host"⟩,
    Issuer := [], TLSVersion := [], ElapsedTime := 5, DNSNames := [] }

/-- The result of probing `a.com:443:a.com` in a world where the handshake
succeeds with the one-certificate chain `[sampleLeaf (48 * Hour)]`, a non-nil
`TLSUnique`, and the probe starts at instant 0. -/
def sampleResult : HostResult :=
  { Host := "a.com:443:a.com".toList, ExpireDays := 2, Err := none, Issuer := [],
    TLSVersion := "TLS v1.2".toList, ElapsedTime := 5,
    DNSNames := ["a.com".toList, "www.a.com".toList] }

theorem Split_ne_nil (s : Str) : Split s ≠ [] := by
  induction s with
  | nil => simp [Split]
  | cons c cs ih =>
    unfold Split
    split
    · simp
    · split <;> simp

theorem Split_no_colon (t : Str) (ht : ':' ∉ t) : Split t = [t] := by
  induction t with
  | nil => rfl
  | cons c cs ih =>
    have hc : c ≠ ':' := fun h => ht (by simp [h])
    have hcs : ':' ∉ cs := fun h => ht (by simp [h])
    simp [Split, hc, ih hcs]

theorem Split_append_colon (t rest : Str) (ht : ':' ∉ t) :
    Split (t ++ ':' :: rest) = t :: Split rest := by
  induction t with
  | nil => simp [Split]
  | cons c cs ih =>
    have hc : c ≠ ':' := fun h => ht (by simp [h])
    have hcs : ':' ∉ cs := fun h => ht (by simp [h])
    simp [Split, hc, ih hcs]

theorem digitValue_digitChar (d : Nat) (hd : d < 10) : digitValue (digitChar d) = some d := by
  interval_cases d <;> decide

theorem digitChar_ne_colon (d : Nat) : digitChar d ≠ ':' := by
  unfold digitChar
  split <;> decide

theorem fmtDigits_no_colon (fuel u : Nat) (acc : Str) (hacc : ':' ∉ acc) :
    ':' ∉ fmtDigits fuel u acc := by
  induction fuel generalizing u acc with
  | zero => simp [fmtDigits, hacc, (digitChar_ne_colon u).symm]
  | succ f ih =>
    unfold fmtDigits
    split
    · apply ih
      simp [hacc, (digitChar_ne_colon (u % 10)).symm]
    · simp [hacc, (digitChar_ne_colon u).symm]

theorem fmtDigits_ne_nil (fuel u : Nat) (acc : Str) : fmtDigits fuel u acc ≠ [] := by
  induction fuel generalizing u acc with
  | zero => simp [fmtDigits]
  | succ f ih =>
    unfold fmtDigits
    split
    · apply ih
    · simp

theorem parseUintLoop_digit (maxVal n d : Nat) (cs : Str) (hd : d < 10)
    (hn : n * 10 + d ≤ maxVal) (hmax : maxVal < 2 ^ 64) :
    parseUintLoop maxVal (digitChar d :: cs) n = parseUintLoop maxVal cs (n * 10 + d) := by
  have h64 : (2 : Nat) ^ 64 = 18446744073709551616 := by norm_num
  rw [parseUintLoop, digitValue_digitChar d hd]
  simp only [maxUint64, h64] at *
  have h1 : ¬ (n ≥ (18446744073709551616 - 1) / 10 + 1) := by omega
  have h2 : n * 10 % 18446744073709551616 = n * 10 := by omega
  have h3 : (n * 10 + d) % 18446744073709551616 = n * 10 + d := by omega
  simp only [h1, h2, h3, if_false]
  rw [if_neg (by omega)]

theorem parseUintLoop_fmtDigits (maxVal fuel u : Nat) (acc : Str) (hfuel : u ≤ fuel)
    (hu : u ≤ maxVal) (hmax : maxVal < 2 ^ 64) :
    parseUintLoop maxVal (fmtDigits fuel u acc) 0 = parseUintLoop maxVal acc u := by
  induction fuel generalizing u acc with
  | zero =>
    have : u = 0 := by omega
    subst this
    rw [fmtDigits, parseUintLoop_digit maxVal 0 0 acc (by omega) (by omega) hmax]
  | succ f ih =>
    unfold fmtDigits
    split
    · rename_i h10
      rw [ih (u / 10) _ (by omega) (by omega),
        parseUintLoop_digit maxVal (u / 10) (u % 10) acc (by omega) (by omega) hmax]
      congr 1
      omega
    · rw [parseUintLoop_digit maxVal 0 u acc (by omega) (by omega) hmax]
      simp

theorem toInt64_of_small (x : Int) (h0 : 0 ≤ x) (h1 : x < 2 ^ 63) : toInt64 x = x := by
  unfold toInt64
  have : (2 : Int) ^ 63 = 9223372036854775808 := by norm_num
  have : (2 : Int) ^ 64 = 18446744073709551616 := by norm_num
  omega

theorem pow_bits_pred_le (w : IntSize) : 2 ^ (w.bits - 1) ≤ 2 ^ 63 ∧ 2 ^ (w.bits - 1) ≤ 2 ^ w.bits - 1
    ∧ 2 ^ w.bits - 1 < 2 ^ 64 := by
  cases w <;> simp [IntSize.bits]

theorem digitChar_not_sign (d : Nat) : digitChar d ≠ '+' ∧ digitChar d ≠ '-' := by
  unfold digitChar
  split <;> decide

theorem fmtDigits_head (fuel u : Nat) (acc : Str) :
    ∃ d cs, fmtDigits fuel u acc = digitChar d :: cs := by
  induction fuel generalizing u acc with
  | zero => exact ⟨u, acc, rfl⟩
  | succ f ih =>
    unfold fmtDigits
    split
    · apply ih
    · exact ⟨u, acc, rfl⟩

theorem Atoi_FormatInt (w : IntSize) (n : Nat) (hn : n < 2 ^ (w.bits - 1)) :
    Atoi w (FormatInt n) = .ok (n : Int) := by
  obtain ⟨hb1, hb2, hb3⟩ := pow_bits_pred_le w
  have hfmt : FormatInt (n : Int) = fmtDigits n n [] := by
    simp [FormatInt]
  have hne := fmtDigits_ne_nil n n []
  have hu : ParseUint w (fmtDigits n n []) = .ok n := by
    rw [ParseUint, if_neg hne, parseUintLoop_fmtDigits _ n n [] (le_refl _) (by omega) hb3]
    rfl
  obtain ⟨d, cs, hd⟩ := fmtDigits_head n n []
  obtain ⟨hp, hm⟩ := digitChar_not_sign d
  rw [Atoi, hfmt]
  rw [hd] at hu
  rw [hd, ParseInt]
  simp only [hp, hm, or_self, if_false, hu, decide_False]
  have h63 : ((n : Nat) : Int) < 2 ^ 63 := by
    have : n < 2 ^ 63 := by omega
    exact_mod_cast this
  simp [toInt64_of_small (n : Int) (by omega) h63]
  omega

@[simp] theorem ok_bind {ε α β : Type} (a : α) (f : α → Except ε β) :
    (Except.ok a >>= f) = f a := rfl

@[simp] theorem error_bind {ε α β : Type} (e : ε) (f : α → Except ε β) :
    ((Except.error e : Except ε α) >>= f) = Except.error e := rfl

@[simp] theorem pure_eq_ok {ε α : Type} (a : α) : (pure a : Except ε α) = Except.ok a := rfl

theorem digitValue_eq (c : Char) :
    digitValue c = if c.isDigit then some (c.toNat - 48) else none := by
  unfold digitValue Char.isDigit
  have h0 : ('0' ≤ c) ↔ (48 : UInt32) ≤ c.val := Iff.rfl
  have h9 : (c ≤ '9') ↔ c.val ≤ (57 : UInt32) := Iff.rfl
  have h48 : '0'.toNat = 48 := rfl
  simp only [h0, h9, h48, ge_iff_le, Bool.and_eq_true, decide_eq_true_eq]

theorem foldl_digits_ge (s : Str) (n : Nat) :
    n ≤ s.foldl (fun n c => n * 10 + (c.toNat - 48)) n := by
  induction s generalizing n with
  | nil => simp
  | cons c cs ih =>
    simp only [List.foldl_cons]
    have := ih (n * 10 + (c.toNat - 48))
    omega

theorem isDigit_value_le (c : Char) (h : c.isDigit) : c.toNat - 48 ≤ 9 := by
  unfold Char.isDigit at h
  simp only [ge_iff_le, Bool.and_eq_true, decide_eq_true_eq] at h
  have h2 : c.val.toNat ≤ 57 := h.2
  show c.val.toNat - 48 ≤ 9
  omega

theorem parseUintLoop_toOption (maxVal : Nat) (hmax : maxVal < 2 ^ 64) (s : Str) (n : Nat)
    (hn : n ≤ maxVal) :
    (parseUintLoop maxVal s n).toOption =
      if s.all Char.isDigit ∧ s.foldl (fun n c => n * 10 + (c.toNat - 48)) n ≤ maxVal
      then some (s.foldl (fun n c => n * 10 + (c.toNat - 48)) n) else none := by
  have h64 : (2 : Nat) ^ 64 = 18446744073709551616 := by norm_num
  induction s generalizing n with
  | nil => simp [parseUintLoop, Except.toOption, hn]
  | cons c cs ih =>
    rw [parseUintLoop, digitValue_eq]
    by_cases hc : c.isDigit
    · have hd := isDigit_value_le c hc
      have hge := foldl_digits_ge cs (n * 10 + (c.toNat - 48))
      simp only [hc, if_true, List.all_cons, Bool.true_and, List.foldl_cons, maxUint64, h64] at *
      by_cases h1 : n ≥ (18446744073709551616 - 1) / 10 + 1
      · rw [if_pos h1, if_neg (by omega)]
        rfl
      · rw [if_neg h1]
        have h2 : n * 10 % 18446744073709551616 = n * 10 := by omega
        simp only [h2]
        by_cases h3 : n * 10 + (c.toNat - 48) ≤ maxVal
        · have h4 : (n * 10 + (c.toNat - 48)) % 18446744073709551616
              = n * 10 + (c.toNat - 48) := by omega
          rw [h4, if_neg (by omega), ih _ h3]
        · rw [if_pos, if_neg (by omega)]
          · rfl
          · omega
    · simp [hc, Except.toOption]

theorem ParseUint_toOption (w : IntSize) (s : Str) :
    (ParseUint w s).toOption =
      (decimalDigits s).bind (fun u => if u ≤ 2 ^ w.bits - 1 then some u else none) := by
  obtain ⟨_, _, hb3⟩ := pow_bits_pred_le w
  unfold ParseUint decimalDigits
  by_cases hs : s = []
  · simp [hs, Except.toOption]
  · rw [if_neg hs, parseUintLoop_toOption _ hb3 s 0 (Nat.zero_le _)]
    by_cases ha : s.all Char.isDigit = true
    · simp [hs, ha]
    · simp [hs, ha]

theorem ParseInt_after_sign (w : IntSize) (neg : Bool) (body : Str) :
    (match ParseUint w body with
      | .error e => (.error e : Except NumError Int)
      | .ok un =>
        if ¬ neg ∧ un ≥ 2 ^ (w.bits - 1) then .error .ErrRange
        else if neg ∧ un > 2 ^ (w.bits - 1) then .error .ErrRange
        else .ok (if neg then toInt64 (-(toInt64 un)) else toInt64 un)).toOption =
      (decimalDigits body).bind (fun u =>
        if -2 ^ (w.bits - 1) ≤ (if neg then -(u : Int) else (u : Int)) ∧
            (if neg then -(u : Int) else (u : Int)) < 2 ^ (w.bits - 1)
        then some (if neg then -(u : Int) else (u : Int)) else none) := by
  obtain ⟨hb1, hb2, hb3⟩ := pow_bits_pred_le w
  have hU := ParseUint_toOption w body
  have e63 : (2 : Int) ^ 63 = 9223372036854775808 := by norm_num
  have e64 : (2 : Int) ^ 64 = 18446744073709551616 := by norm_num
  have n63 : (2 : Nat) ^ 63 = 9223372036854775808 := by norm_num
  rw [show (2 : Int) ^ (w.bits - 1) = ((2 ^ (w.bits - 1) : Nat) : Int) from by push_cast; rfl]
  have hpos : 1 ≤ 2 ^ (w.bits - 1) := Nat.one_le_two_pow
  generalize hC : 2 ^ (w.bits - 1) = C at *
  cases hd : decimalDigits body with
  | none =>
    rw [hd] at hU
    cases hp : ParseUint w body with
    | error e => simp [Except.toOption]
    | ok un => rw [hp] at hU; simp [Except.toOption] at hU
  | some u =>
    rw [hd] at hU
    simp only [Option.some_bind] at hU ⊢
    cases hp : ParseUint w body with
    | error e =>
      rw [hp] at hU
      simp only [Except.toOption] at hU ⊢
      have hu : ¬ u ≤ 2 ^ w.bits - 1 := by
        intro h; rw [if_pos h] at hU; cases hU
      cases neg
      · simp only [Bool.false_eq_true, if_false]
        rw [if_neg]; omega
      · simp only [if_true]
        rw [if_neg]; omega
    | ok un =>
      rw [hp] at hU
      simp only [Except.toOption] at hU
      have hu : u ≤ 2 ^ w.bits - 1 := by
        by_contra h; rw [if_neg h] at hU; cases hU
      rw [if_pos hu] at hU
      have hun : un = u := by injection hU
      subst hun
      cases neg
      · simp only [Bool.false_eq_true, if_false, not_false_eq_true, true_and, false_and]
        by_cases hr : un ≥ C
        · rw [if_pos hr, if_neg (by omega)]; rfl
        · rw [if_neg hr, if_pos (by omega)]
          simp only [Except.toOption]
          rw [toInt64_of_small _ (by omega) (by rw [e63]; omega)]
      · simp only [if_true, not_true_eq_false, false_and, true_and, if_false]
        by_cases hr : un > C
        · rw [if_pos hr, if_neg (by omega)]; rfl
        · rw [if_neg hr, if_pos (by omega)]
          have hv : toInt64 (-(toInt64 (un : Int))) = -(un : Int) := by
            unfold toInt64
            omega
          simp only [Except.toOption, hv]

theorem Atoi_toOption (w : IntSize) (s : Str) :
    (Atoi w s).toOption =
      (decimalValue s).bind (fun v =>
        if -2 ^ (w.bits - 1) ≤ v ∧ v < 2 ^ (w.bits - 1) then some v else none) := by
  unfold Atoi ParseInt
  have hpm : ¬ ('+' : Char) = '-' := by decide
  have hmp : ¬ ('-' : Char) = '+' := by decide
  cases s with
  | nil => simp [decimalValue, decimalDigits, Except.toOption]
  | cons c cs =>
    by_cases hp : c = '+'
    · subst hp
      have := ParseInt_after_sign w false cs
      simp only [Bool.false_eq_true, if_false] at this
      simp only [decimalValue, hpm, or_false, if_true, decide_False, Bool.false_eq_true,
        if_false]
      rw [this]
      cases decimalDigits cs <;> simp
    · by_cases hm : c = '-'
      · subst hm
        have := ParseInt_after_sign w true cs
        simp only [if_true] at this
        simp only [decimalValue, or_true, if_true, decide_True]
        rw [this]
        cases decimalDigits cs <;> simp
      · have := ParseInt_after_sign w false (c :: cs)
        simp only [Bool.false_eq_true, if_false] at this
        have hv : decimalValue (c :: cs) = (decimalDigits (c :: cs)).map Int.ofNat := by
          unfold decimalValue
          split
          · rename_i h; simp at h; exact absurd h.1 hp
          · rename_i h; simp at h; exact absurd h.1 hm
          · rfl
        simp only [hp, hm, or_self, if_false, decide_False, Bool.false_eq_true, hv]
        rw [this]
        cases decimalDigits (c :: cs) <;> simp

theorem Atoi_port (w : IntSize) (f : Str) :
    (match Atoi w f with
      | .ok portn => portn
      | .error _ => (443 : Int)) =
    (match decimalValue f with
      | none => (443 : Int)
      | some v => if -2 ^ (w.bits - 1) ≤ v ∧ v < 2 ^ (w.bits - 1) then v else 443) := by
  have ha := Atoi_toOption w f
  cases hA : Atoi w f with
  | error e =>
    rw [hA] at ha
    simp only [Except.toOption] at ha
    cases hv : decimalValue f with
    | none => rfl
    | some v =>
      rw [hv] at ha
      simp only [Option.some_bind] at ha
      by_cases hr : -2 ^ (w.bits - 1) ≤ v ∧ v < 2 ^ (w.bits - 1)
      · rw [if_pos hr] at ha; cases ha
      · simp only [hr, if_false]
  | ok portn =>
    rw [hA] at ha
    simp only [Except.toOption] at ha
    cases hv : decimalValue f with
    | none => rw [hv] at ha; cases ha
    | some v =>
      rw [hv] at ha
      simp only [Option.some_bind] at ha
      by_cases hr : -2 ^ (w.bits - 1) ≤ v ∧ v < 2 ^ (w.bits - 1)
      · rw [if_pos hr] at ha
        injection ha with ha
        subst ha
        simp only [hr, if_true, and_self]
      · rw [if_neg hr] at ha; cases ha

theorem ParseDomainPortHost_total (w : IntSize) (info : Str) :
    ∃ domain host, ParseDomainPortHost w info = .ok (domain, portRule w info, host) := by
  have hne := Split_ne_nil info
  unfold ParseDomainPortHost portRule
  cases hs : Split info with
  | nil => exact absurd hs hne
  | cons d fs =>
    cases fs with
    | nil => simp [index]
    | cons f gs =>
      have ha := Atoi_port w f
      cases gs with
      | nil =>
        refine ⟨d, d, ?_⟩
        simp only [List.length_cons, index, List.get?_cons_succ, List.get?_cons_zero, ok_bind,
          pure_eq_ok, List.length_nil]
        rw [← ha]
        cases Atoi w f <;> simp
      | cons g gs =>
        refine ⟨d, g, ?_⟩
        simp only [List.length_cons, index, List.get?_cons_succ, List.get?_cons_zero, ok_bind,
          pure_eq_ok]
        rw [← ha]
        cases Atoi w f <;> simp

theorem log2Aux_spec (f n : Nat) (h1 : 1 ≤ n) (hf : n < 2 ^ (f + 1)) :
    2 ^ log2Aux f n ≤ n ∧ n < 2 ^ (log2Aux f n + 1) := by
  induction f generalizing n with
  | zero =>
    have : n = 1 := by omega
    subst this
    simp [log2Aux]
  | succ f ih =>
    unfold log2Aux
    split
    · rename_i h2
      have h3 : n / 2 < 2 ^ (f + 1) := by
        rw [Nat.div_lt_iff_lt_mul (by norm_num)]
        rw [pow_succ] at hf
        exact hf
      obtain ⟨ha, hb⟩ := ih (n / 2) (by omega) h3
      constructor
      · rw [pow_succ]; omega
      · rw [pow_succ]; omega
    · have : n = 1 := by omega
      subst this
      simp

theorem ilog2_spec (n : Nat) (h1 : 1 ≤ n) : 2 ^ ilog2 n ≤ n ∧ n < 2 ^ (ilog2 n + 1) := by
  apply log2Aux_spec n n h1
  calc n < 2 ^ n := Nat.lt_two_pow n
    _ ≤ 2 ^ (n + 1) := Nat.pow_le_pow_right (by norm_num) (by omega)

theorem two_pow_le_of_lt (a b : Nat) (h : 2 ^ a < 2 ^ b) : a < b :=
  (Nat.pow_lt_pow_iff_right (by norm_num)).mp h

/-- The shape of a rounded value: `m0` is the significand of the scaled
quotient `N` rounded down, and `m` is `m0` or, only when bits were dropped,
`m0 + 1`. -/
theorem roundNearestEven_spec (p q : Nat) (hp : 1 ≤ p) (hq : 1 ≤ q) :
    ∃ m0 m L t N, roundNearestEven p q = (m * 2 ^ L, 2 ^ t) ∧
      N * q ≤ p * 2 ^ t ∧ p * 2 ^ t < (N + 1) * q ∧
      m0 * 2 ^ L ≤ N ∧ N < (m0 + 1) * 2 ^ L ∧ 2 ^ 52 ≤ m0 ∧ m0 < 2 ^ 53 ∧
      (m = m0 ∨ (m = m0 + 1 ∧ m0 * 2 ^ L < N)) := by
  obtain ⟨hq1, hq2⟩ := ilog2_spec q hq
  have hN1 : p * 2 ^ (64 + ilog2 q) / q * q ≤ p * 2 ^ (64 + ilog2 q) := Nat.div_mul_le_self _ _
  have hN2 : p * 2 ^ (64 + ilog2 q) < (p * 2 ^ (64 + ilog2 q) / q + 1) * q := by
    have := Nat.lt_succ_self (p * 2 ^ (64 + ilog2 q) / q)
    exact (Nat.div_lt_iff_lt_mul (by omega)).mp this
  have hNbig : 2 ^ 63 ≤ p * 2 ^ (64 + ilog2 q) / q := by
    rw [Nat.le_div_iff_mul_le (by omega)]
    calc 2 ^ 63 * q ≤ 2 ^ 63 * 2 ^ (ilog2 q + 1) := Nat.mul_le_mul_left _ (le_of_lt hq2)
      _ = 1 * 2 ^ (64 + ilog2 q) := by rw [← pow_add]; ring_nf
      _ ≤ p * 2 ^ (64 + ilog2 q) := Nat.mul_le_mul_right _ hp
  have hdef : roundNearestEven p q =
      ((if p * 2 ^ (64 + ilog2 q) / q % 2 ^ (ilog2 (p * 2 ^ (64 + ilog2 q) / q) - 52) >
            2 ^ (ilog2 (p * 2 ^ (64 + ilog2 q) / q) - 52 - 1) ∨
          (p * 2 ^ (64 + ilog2 q) / q % 2 ^ (ilog2 (p * 2 ^ (64 + ilog2 q) / q) - 52) =
            2 ^ (ilog2 (p * 2 ^ (64 + ilog2 q) / q) - 52 - 1) ∧
            (p * 2 ^ (64 + ilog2 q) % q ≠ 0 ∨
              p * 2 ^ (64 + ilog2 q) / q /
                2 ^ (ilog2 (p * 2 ^ (64 + ilog2 q) / q) - 52) % 2 = 1))
        then p * 2 ^ (64 + ilog2 q) / q / 2 ^ (ilog2 (p * 2 ^ (64 + ilog2 q) / q) - 52) + 1
        else p * 2 ^ (64 + ilog2 q) / q / 2 ^ (ilog2 (p * 2 ^ (64 + ilog2 q) / q) - 52)) *
          2 ^ (ilog2 (p * 2 ^ (64 + ilog2 q) / q) - 52), 2 ^ (64 + ilog2 q)) := by
    unfold roundNearestEven
    rw [if_neg (by omega)]
  generalize p * 2 ^ (64 + ilog2 q) / q = N at *
  have hNpos : 1 ≤ N := le_trans Nat.one_le_two_pow hNbig
  obtain ⟨hl1, hl2⟩ := ilog2_spec N hNpos
  have hlg : 63 ≤ ilog2 N := by
    have : 2 ^ 63 < 2 ^ (ilog2 N + 1) := lt_of_le_of_lt hNbig hl2
    have := two_pow_le_of_lt _ _ this
    omega
  have hL : ilog2 N = (ilog2 N - 52) + 52 := by omega
  have hE : 0 < 2 ^ (ilog2 N - 52) := Nat.two_pow_pos _
  have hm1 : N / 2 ^ (ilog2 N - 52) * 2 ^ (ilog2 N - 52) ≤ N := Nat.div_mul_le_self _ _
  have hm2 : N < (N / 2 ^ (ilog2 N - 52) + 1) * 2 ^ (ilog2 N - 52) :=
    (Nat.div_lt_iff_lt_mul hE).mp (Nat.lt_succ_self _)
  have hm3 : 2 ^ 52 ≤ N / 2 ^ (ilog2 N - 52) := by
    rw [Nat.le_div_iff_mul_le hE, ← pow_add, Nat.add_comm, ← hL]
    exact hl1
  have hm4 : N / 2 ^ (ilog2 N - 52) < 2 ^ 53 := by
    rw [Nat.div_lt_iff_lt_mul hE, ← pow_add]
    have : 53 + (ilog2 N - 52) = ilog2 N + 1 := by omega
    rw [this]
    exact hl2
  have hmod := Nat.div_add_mod N (2 ^ (ilog2 N - 52))
  have hhalf : 1 ≤ 2 ^ (ilog2 N - 52 - 1) := Nat.one_le_two_pow
  refine ⟨N / 2 ^ (ilog2 N - 52), _, ilog2 N - 52, 64 + ilog2 q, N, hdef, hN1, hN2, hm1, hm2,
    hm3, hm4, ?_⟩
  split
  · rename_i hup
    right
    refine ⟨rfl, ?_⟩
    have hr : 1 ≤ N % 2 ^ (ilog2 N - 52) := by
      rcases hup with h | h
      · omega
      · omega
    rw [Nat.mul_comm]
    omega
  · left; rfl

theorem roundNearestEven_snd_pos (p q : Nat) : 0 < (roundNearestEven p q).2 := by
  unfold roundNearestEven
  split
  · simp
  · exact Nat.two_pow_pos _

/-- Rounding does not cross a representable number above: if
`p / q ≤ a / 2^k` with `a < 2^53`, the rounded value is at most `a / 2^k`. -/
theorem roundNearestEven_le (p q a k : Nat) (hq : 1 ≤ q) (ha : a < 2 ^ 53)
    (h : p * 2 ^ k ≤ a * q) :
    (roundNearestEven p q).1 * 2 ^ k ≤ a * (roundNearestEven p q).2 := by
  by_cases hp : p = 0
  · subst hp
    simp [roundNearestEven]
  obtain ⟨m0, m, L, t, N, hdef, hN1, hN2, hm1, hm2, hm3, hm4, hm⟩ :=
    roundNearestEven_spec p q (by omega) hq
  rw [hdef]
  show m * 2 ^ L * 2 ^ k ≤ a * 2 ^ t
  have hK : 0 < 2 ^ k := Nat.two_pow_pos _
  have hE : 0 < 2 ^ L := Nat.two_pow_pos _
  have hT : 0 < 2 ^ t := Nat.two_pow_pos _
  -- N / 2^t ≤ a / 2^k
  have F1 : N * 2 ^ k ≤ a * 2 ^ t := by
    apply Nat.le_of_mul_le_mul_right _ (show 0 < q by omega)
    calc N * 2 ^ k * q = (N * q) * 2 ^ k := by ring
      _ ≤ (p * 2 ^ t) * 2 ^ k := Nat.mul_le_mul_right _ hN1
      _ = (p * 2 ^ k) * 2 ^ t := by ring
      _ ≤ (a * q) * 2 ^ t := Nat.mul_le_mul_right _ h
      _ = a * 2 ^ t * q := by ring
  have F3 : 2 ^ 52 * 2 ^ L * 2 ^ k ≤ N * 2 ^ k := by
    apply Nat.mul_le_mul_right
    exact le_trans (Nat.mul_le_mul_right _ hm3) hm1
  have F4 : 2 ^ (52 + L + k) < 2 ^ (53 + t) := by
    calc 2 ^ (52 + L + k) = 2 ^ 52 * 2 ^ L * 2 ^ k := by rw [pow_add, pow_add]
      _ ≤ a * 2 ^ t := le_trans F3 F1
      _ < 2 ^ 53 * 2 ^ t := Nat.mul_lt_mul_of_pos_right ha hT
      _ = 2 ^ (53 + t) := by rw [pow_add]
  have hexp := two_pow_le_of_lt _ _ F4
  obtain ⟨j, hj⟩ : ∃ j, t = L + k + j := ⟨t - (L + k), by omega⟩
  have hTe : 2 ^ t = 2 ^ L * 2 ^ k * 2 ^ j := by rw [hj, pow_add, pow_add]
  have F5 : N ≤ a * 2 ^ j * 2 ^ L := by
    apply Nat.le_of_mul_le_mul_right _ hK
    calc N * 2 ^ k ≤ a * 2 ^ t := F1
      _ = a * 2 ^ j * 2 ^ L * 2 ^ k := by rw [hTe]; ring
  have F6 : m ≤ a * 2 ^ j := by
    rcases hm with hm | ⟨hm, hlt⟩
    · subst hm
      exact Nat.le_of_mul_le_mul_right (le_trans hm1 F5) hE
    · subst hm
      have : m0 * 2 ^ L < a * 2 ^ j * 2 ^ L := lt_of_lt_of_le hlt F5
      have := Nat.lt_of_mul_lt_mul_right this
      omega
  calc m * 2 ^ L * 2 ^ k ≤ a * 2 ^ j * 2 ^ L * 2 ^ k :=
        Nat.mul_le_mul_right _ (Nat.mul_le_mul_right _ F6)
    _ = a * 2 ^ t := by rw [hTe]; ring

/-- Rounding does not cross a representable number below: if
`a / 2^k ≤ p / q` with `a < 2^53`, the rounded value is at least `a / 2^k`. -/
theorem roundNearestEven_ge (p q a k : Nat) (hq : 1 ≤ q) (ha : a < 2 ^ 53)
    (h : a * q ≤ p * 2 ^ k) :
    a * (roundNearestEven p q).2 ≤ (roundNearestEven p q).1 * 2 ^ k := by
  by_cases hp : p = 0
  · subst hp
    have : a = 0 := by
      rcases Nat.eq_zero_or_pos a with h0 | h0
      · exact h0
      · have := Nat.mul_pos h0 (show 0 < q by omega)
        omega
    subst this
    simp
  obtain ⟨m0, m, L, t, N, hdef, hN1, hN2, hm1, hm2, hm3, hm4, hm⟩ :=
    roundNearestEven_spec p q (by omega) hq
  rw [hdef]
  show a * 2 ^ t ≤ m * 2 ^ L * 2 ^ k
  have hK : 0 < 2 ^ k := Nat.two_pow_pos _
  have hE : 0 < 2 ^ L := Nat.two_pow_pos _
  have hT : 0 < 2 ^ t := Nat.two_pow_pos _
  have hmm : m0 ≤ m := by rcases hm with hm | ⟨hm, _⟩ <;> omega
  have F2 : a * 2 ^ t < (N + 1) * 2 ^ k := by
    apply Nat.lt_of_mul_lt_mul_right (a := q)
    calc a * 2 ^ t * q = (a * q) * 2 ^ t := by ring
      _ ≤ (p * 2 ^ k) * 2 ^ t := Nat.mul_le_mul_right _ h
      _ = (p * 2 ^ t) * 2 ^ k := by ring
      _ < ((N + 1) * q) * 2 ^ k := Nat.mul_lt_mul_of_pos_right hN2 hK
      _ = (N + 1) * 2 ^ k * q := by ring
  by_cases hexp : L + k ≤ t
  · obtain ⟨j, hj⟩ : ∃ j, t = L + k + j := ⟨t - (L + k), by omega⟩
    have hTe : 2 ^ t = 2 ^ L * 2 ^ k * 2 ^ j := by rw [hj, pow_add, pow_add]
    have F5 : a * 2 ^ j * 2 ^ L < N + 1 := by
      apply Nat.lt_of_mul_lt_mul_right (a := 2 ^ k)
      calc a * 2 ^ j * 2 ^ L * 2 ^ k = a * 2 ^ t := by rw [hTe]; ring
        _ < (N + 1) * 2 ^ k := F2
    have F6 : a * 2 ^ j < m0 + 1 := by
      apply Nat.lt_of_mul_lt_mul_right (a := 2 ^ L)
      omega
    calc a * 2 ^ t = a * 2 ^ j * 2 ^ L * 2 ^ k := by rw [hTe]; ring
      _ ≤ m * 2 ^ L * 2 ^ k :=
        Nat.mul_le_mul_right _ (Nat.mul_le_mul_right _ (by omega))
  · obtain ⟨i, hi⟩ : ∃ i, L + k = t + 1 + i := ⟨L + k - (t + 1), by omega⟩
    have hEK : 2 ^ L * 2 ^ k = 2 ^ t * 2 * 2 ^ i := by
      rw [← pow_add, hi, pow_add, pow_add]; ring
    have hi1 : 1 ≤ 2 ^ i := Nat.one_le_two_pow
    calc a * 2 ^ t ≤ 2 ^ 53 * 2 ^ t := Nat.mul_le_mul_right _ (le_of_lt ha)
      _ = 2 ^ 52 * (2 ^ t * 2 * 1) := by ring
      _ ≤ m * (2 ^ t * 2 * 2 ^ i) :=
        Nat.mul_le_mul (le_trans hm3 hmm) (Nat.mul_le_mul_left _ hi1)
      _ = m * 2 ^ L * 2 ^ k := by rw [← hEK]; ring

theorem F64.round_natCast (n d : Nat) :
    F64.round (n : Int) d = ⟨((roundNearestEven n d).1 : Int), (roundNearestEven n d).2⟩ := by
  unfold F64.round
  rcases Nat.eq_zero_or_pos n with h | h
  · subst h
    simp [roundNearestEven]
  · have : Int.sign (n : Int) = 1 := Int.sign_eq_one_of_pos (by exact_mod_cast h)
    simp [this]

theorem F64.ofInt_natCast (n : Nat) (hn : n < 2 ^ 53) :
    ∃ b, 0 < b ∧ F64.ofInt (n : Int) = ⟨((n * b : Nat) : Int), b⟩ := by
  refine ⟨(roundNearestEven n 1).2, roundNearestEven_snd_pos n 1, ?_⟩
  have h1 := roundNearestEven_le n 1 n 0 (le_refl _) hn (by simp)
  have h2 := roundNearestEven_ge n 1 n 0 (le_refl _) hn (by simp)
  simp only [pow_zero, Nat.mul_one] at h1 h2
  rw [F64.ofInt, F64.round_natCast, ← Nat.le_antisymm h1 h2]

theorem F64.div_natCast (a b c e : Nat) (hc : 0 < c) :
    F64.div ⟨(a : Int), b⟩ ⟨(c : Int), e⟩ =
      ⟨((roundNearestEven (a * e) (b * c)).1 : Int), (roundNearestEven (a * e) (b * c)).2⟩ := by
  have : Int.sign (c : Int) = 1 := Int.sign_eq_one_of_pos (by exact_mod_cast hc)
  unfold F64.div
  simp only [this, mul_one, Int.natAbs_ofNat]
  rw [← F64.round_natCast]
  push_cast
  rfl

theorem F64.add_natCast (a b c e : Nat) :
    F64.add ⟨(a : Int), b⟩ ⟨(c : Int), e⟩ =
      ⟨((roundNearestEven (a * e + c * b) (b * e)).1 : Int),
        (roundNearestEven (a * e + c * b) (b * e)).2⟩ := by
  unfold F64.add
  rw [← F64.round_natCast]
  push_cast
  rfl

theorem F64.toInt_natCast (a b : Nat) : F64.toInt ⟨(a : Int), b⟩ = ((a / b : Nat) : Int) := by
  unfold F64.toInt
  rfl

theorem Hour_eq : Hour = ((3600000000000 : Nat) : Int) := by
  norm_num [Hour]

/-- The day count of a non-negative duration `d`, bracketed between the
whole days in `⌊d / Hour⌋` hours and in `u` hours, where `u` bounds the
rounded hour count. -/
theorem days_bracket (d u : Nat) (hd : d ≤ 2 ^ 63)
    (hu : d / 3600000000000 ≤ u) (hu1 : u ≤ d / 3600000000000 + 1)
    (hexact : u = d / 3600000000000 → d % 3600000000000 = 0) :
    ∃ e : Nat, F64.toInt (F64.div (Duration.Hours (d : Int)) (F64.ofInt 24)) = (e : Int) ∧
      d / 3600000000000 / 24 ≤ e ∧ e ≤ u / 24 := by
  have e63 : (2 : Nat) ^ 63 = 9223372036854775808 := by norm_num
  have e53 : (2 : Nat) ^ 53 = 9007199254740992 := by norm_num
  have e42 : (2 : Nat) ^ 42 = 4398046511104 := by norm_num
  have hmodlt : d % 3600000000000 < 3600000000000 := Nat.mod_lt _ (by norm_num)
  have hhour : d / 3600000000000 < 2562048 := by
    rw [Nat.div_lt_iff_lt_mul (by norm_num)]; omega
  generalize hh : d / 3600000000000 = hour at *
  generalize hn : d % 3600000000000 = nsec at *
  obtain ⟨hb, hbpos, hhb⟩ := F64.ofInt_natCast hour (by omega)
  obtain ⟨nb, nbpos, hnb⟩ := F64.ofInt_natCast nsec (by omega)
  obtain ⟨cb, cbpos, hcb⟩ := F64.ofInt_natCast 3600000000000 (by omega)
  obtain ⟨bb, bbpos, hbb⟩ := F64.ofInt_natCast 24 (by omega)
  have hC : (60 * 60 * 10 ^ 9 : Int) = ((3600000000000 : Nat) : Int) := by norm_num
  have h24 : (24 : Int) = ((24 : Nat) : Int) := by norm_num
  unfold Duration.Hours
  simp only [Hour_eq, ← Int.ofNat_tdiv, ← Int.ofNat_tmod, hh, hn, hC]
  rw [h24, hhb, hnb, hcb, hbb,
    F64.div_natCast _ _ _ _ (Nat.mul_pos (by norm_num) cbpos)]
  -- the fraction of an hour, below one
  have hf2 := roundNearestEven_snd_pos (nsec * nb * cb) (nb * (3600000000000 * cb))
  have hq1 : 1 ≤ nb * (3600000000000 * cb) := Nat.mul_pos nbpos (Nat.mul_pos (by norm_num) cbpos)
  have hfu := roundNearestEven_le (nsec * nb * cb) (nb * (3600000000000 * cb))
    (2 ^ 42 - 1) 42 hq1 (by omega) (by
      have : nsec * 2 ^ 42 ≤ (2 ^ 42 - 1) * 3600000000000 := by omega
      calc nsec * nb * cb * 2 ^ 42 = (nsec * 2 ^ 42) * (nb * cb) := by ring
        _ ≤ ((2 ^ 42 - 1) * 3600000000000) * (nb * cb) := Nat.mul_le_mul_right _ this
        _ = (2 ^ 42 - 1) * (nb * (3600000000000 * cb)) := by ring)
  have hf0 : nsec = 0 → (roundNearestEven (nsec * nb * cb) (nb * (3600000000000 * cb))).1 = 0 := by
    intro h0
    subst h0
    simp [roundNearestEven]
  generalize (roundNearestEven (nsec * nb * cb) (nb * (3600000000000 * cb))).1 = f1 at *
  generalize (roundNearestEven (nsec * nb * cb) (nb * (3600000000000 * cb))).2 = f2 at *
  have hf12 : f1 ≤ f2 := by omega
  have hfu2 : f1 ≤ (u - hour) * f2 := by
    rcases Nat.eq_or_lt_of_le hu with h | h
    · have := hf0 (hexact h.symm)
      omega
    · have : u - hour = 1 := by omega
      rw [this]; omega
  -- the hour count, between `hour` and `u`
  rw [F64.add_natCast]
  have hq2 : 1 ≤ hb * f2 := Nat.mul_pos hbpos hf2
  have hsl := roundNearestEven_ge (hour * hb * f2 + f1 * hb) (hb * f2) hour 0 hq2 (by omega) (by
    simp only [pow_zero, Nat.mul_one]
    calc hour * (hb * f2) = hour * hb * f2 := by ring
      _ ≤ hour * hb * f2 + f1 * hb := Nat.le_add_right _ _)
  have hsu := roundNearestEven_le (hour * hb * f2 + f1 * hb) (hb * f2) u 0 hq2 (by omega) (by
    simp only [pow_zero, Nat.mul_one]
    calc hour * hb * f2 + f1 * hb ≤ hour * hb * f2 + (u - hour) * f2 * hb :=
          Nat.add_le_add_left (Nat.mul_le_mul_right _ hfu2) _
      _ = (hour + (u - hour)) * (hb * f2) := by ring
      _ = u * (hb * f2) := by rw [Nat.add_sub_cancel' hu])
  have hs2 := roundNearestEven_snd_pos (hour * hb * f2 + f1 * hb) (hb * f2)
  simp only [pow_zero, Nat.mul_one] at hsl hsu
  generalize (roundNearestEven (hour * hb * f2 + f1 * hb) (hb * f2)).1 = s1 at *
  generalize (roundNearestEven (hour * hb * f2 + f1 * hb) (hb * f2)).2 = s2 at *
  -- the day count
  rw [F64.div_natCast _ _ _ _ (Nat.mul_pos (by norm_num) bbpos), F64.toInt_natCast]
  have hq3 : 1 ≤ s2 * (24 * bb) := Nat.mul_pos hs2 (Nat.mul_pos (by norm_num) bbpos)
  have hxl := roundNearestEven_ge (s1 * bb) (s2 * (24 * bb)) (hour / 24) 0 hq3 (by omega) (by
    simp only [pow_zero, Nat.mul_one]
    have : hour / 24 * 24 ≤ hour := Nat.div_mul_le_self _ _
    calc hour / 24 * (s2 * (24 * bb)) = (hour / 24 * 24) * s2 * bb := by ring
      _ ≤ hour * s2 * bb := Nat.mul_le_mul_right _ (Nat.mul_le_mul_right _ this)
      _ ≤ s1 * bb := Nat.mul_le_mul_right _ hsl)
  have hxu := roundNearestEven_le (s1 * bb) (s2 * (24 * bb)) (32 * (u / 24) + 31) 5 hq3
    (by omega) (by
      have : u * 32 ≤ (32 * (u / 24) + 31) * 24 := by omega
      calc s1 * bb * 2 ^ 5 = s1 * (32 * bb) := by ring
        _ ≤ u * s2 * (32 * bb) := Nat.mul_le_mul_right _ hsu
        _ = (u * 32) * (s2 * bb) := by ring
        _ ≤ ((32 * (u / 24) + 31) * 24) * (s2 * bb) := Nat.mul_le_mul_right _ this
        _ = (32 * (u / 24) + 31) * (s2 * (24 * bb)) := by ring)
  have hx2 := roundNearestEven_snd_pos (s1 * bb) (s2 * (24 * bb))
  simp only [pow_zero, Nat.mul_one] at hxl
  generalize (roundNearestEven (s1 * bb) (s2 * (24 * bb))).1 = x1 at *
  generalize (roundNearestEven (s1 * bb) (s2 * (24 * bb))).2 = x2 at *
  refine ⟨x1 / x2, rfl, ?_, ?_⟩
  · rw [Nat.le_div_iff_mul_le hx2]; exact hxl
  · have : x1 / x2 < u / 24 + 1 := by
      rw [Nat.div_lt_iff_lt_mul hx2]
      have h32 : x1 * 32 < (u / 24 + 1) * x2 * 32 := by
        calc x1 * 32 = x1 * 2 ^ 5 := by norm_num
          _ ≤ (32 * (u / 24) + 31) * x2 := hxu
          _ < (32 * (u / 24) + 32) * x2 := Nat.mul_lt_mul_of_pos_right (by omega) hx2
          _ = (u / 24 + 1) * x2 * 32 := by ring
      exact Nat.lt_of_mul_lt_mul_right h32
    omega

theorem F64.round_neg_eq (n : Int) (d : Nat) : F64.round (-n) d = F64.neg (F64.round n d) := by
  simp [F64.round, F64.neg, Int.sign_neg]

theorem F64.ofInt_neg (i : Int) : F64.ofInt (-i) = F64.neg (F64.ofInt i) :=
  F64.round_neg_eq i 1

theorem F64.div_neg_left (x y : F64) : F64.div (F64.neg x) y = F64.neg (F64.div x y) := by
  unfold F64.div
  rw [← F64.round_neg_eq]
  simp [F64.neg]

theorem F64.add_neg_neg (x y : F64) :
    F64.add (F64.neg x) (F64.neg y) = F64.neg (F64.add x y) := by
  unfold F64.add
  rw [← F64.round_neg_eq]
  simp [F64.neg]
  congr 1
  ring

theorem F64.toInt_neg (x : F64) : F64.toInt (F64.neg x) = -F64.toInt x := by
  simp [F64.toInt, F64.neg]

theorem neg_tmod_eq (a b : Int) : (-a).tmod b = -(a.tmod b) := by
  rw [Int.tmod_def, Int.tmod_def, Int.neg_tdiv]
  ring

theorem Duration.Hours_neg (d : Int) : Duration.Hours (-d) = F64.neg (Duration.Hours d) := by
  unfold Duration.Hours
  simp only [Int.neg_tdiv, neg_tmod_eq, F64.ofInt_neg, F64.div_neg_left, F64.add_neg_neg]

theorem days_neg (d : Int) :
    F64.toInt (F64.div (Duration.Hours (-d)) (F64.ofInt 24)) =
      -F64.toInt (F64.div (Duration.Hours d) (F64.ofInt 24)) := by
  rw [Duration.Hours_neg, F64.div_neg_left, F64.toInt_neg]

theorem days_nat (n : Nat) (hn : n ≤ 2 ^ 63) :
    ∃ e : Nat, F64.toInt (F64.div (Duration.Hours (n : Int)) (F64.ofInt 24)) = (e : Int) ∧
      (e = n / 3600000000000 / 24 ∨ (0 < n ∧ e = (n / 3600000000000 + 1) / 24)) ∧
      (n % 3600000000000 = 0 → e = n / 3600000000000 / 24) := by
  by_cases hz : n % 3600000000000 = 0
  · obtain ⟨e, he, h1, h2⟩ := days_bracket n (n / 3600000000000) hn (le_refl _)
      (Nat.le_succ _) (fun _ => hz)
    have : e = n / 3600000000000 / 24 := Nat.le_antisymm h2 h1
    exact ⟨e, he, Or.inl this, fun _ => this⟩
  · obtain ⟨e, he, h1, h2⟩ := days_bracket n (n / 3600000000000 + 1) hn (Nat.le_succ _)
      (le_refl _) (fun h => by omega)
    have hpos : 0 < n := by
      rcases Nat.eq_zero_or_pos n with h | h
      · subst h; simp at hz
      · exact h
    refine ⟨e, he, ?_, fun h => absurd h hz⟩
    have : (n / 3600000000000 + 1) / 24 ≤ n / 3600000000000 / 24 + 1 := by omega
    rcases Nat.eq_or_lt_of_le h1 with h | h
    · exact Or.inl h.symm
    · exact Or.inr ⟨hpos, by omega⟩

/-- The day count computed by `int(d.Hours() / 24)` for a duration `d`: the
truncated quotient of the whole hours by 24, or that of one more hour away
from zero; the former whenever `d` is a whole number of hours. -/
theorem days_cases (d : Int) (h1 : -2 ^ 63 ≤ d) (h2 : d ≤ 2 ^ 63) :
    (F64.toInt (F64.div (Duration.Hours d) (F64.ofInt 24)) = Int.tdiv (Int.tdiv d Hour) 24 ∨
      F64.toInt (F64.div (Duration.Hours d) (F64.ofInt 24)) =
        Int.tdiv (Int.tdiv d Hour + Int.sign d) 24) ∧
    (Int.tmod d Hour = 0 →
      F64.toInt (F64.div (Duration.Hours d) (F64.ofInt 24)) = Int.tdiv (Int.tdiv d Hour) 24) ∧
    (0 ≤ d → 0 ≤ F64.toInt (F64.div (Duration.Hours d) (F64.ofInt 24))) := by
  have e63 : (2 : Int) ^ 63 = ((2 ^ 63 : Nat) : Int) := by norm_num
  have h24 : (24 : Int) = ((24 : Nat) : Int) := by norm_num
  rcases Int.le_total 0 d with hd | hd
  · obtain ⟨n, rfl⟩ := Int.eq_ofNat_of_zero_le hd
    have hn : n ≤ 2 ^ 63 := by rw [e63] at h2; exact_mod_cast h2
    obtain ⟨e, he, hcase, hex⟩ := days_nat n hn
    rw [he, Hour_eq, h24, ← Int.ofNat_tdiv, ← Int.ofNat_tdiv, ← Int.ofNat_tmod]
    refine ⟨?_, ?_, fun _ => Int.ofNat_nonneg e⟩
    · rcases hcase with h | ⟨hpos, h⟩
      · left; rw [h]
      · right
        have : Int.sign (n : Int) = 1 := Int.sign_eq_one_of_pos (by exact_mod_cast hpos)
        rw [this, h]
        have : ((n / 3600000000000 : Nat) : Int) + 1 = ((n / 3600000000000 + 1 : Nat) : Int) := by
          push_cast; rfl
        rw [this, ← Int.ofNat_tdiv]
    · intro hz
      have : n % 3600000000000 = 0 := by exact_mod_cast hz
      rw [hex this]
  · obtain ⟨n, hn'⟩ := Int.eq_ofNat_of_zero_le (Int.neg_nonneg_of_nonpos hd)
    have hdn : d = -(n : Int) := by omega
    subst hdn
    have hn : n ≤ 2 ^ 63 := by
      have : (n : Int) ≤ 2 ^ 63 := by omega
      rw [e63] at this; exact_mod_cast this
    obtain ⟨e, he, hcase, hex⟩ := days_nat n hn
    rw [days_neg, he, Hour_eq, h24, Int.neg_tdiv, neg_tmod_eq, ← Int.ofNat_tdiv, Int.neg_tdiv,
      ← Int.ofNat_tdiv, ← Int.ofNat_tmod]
    refine ⟨?_, ?_, ?_⟩
    · rcases hcase with h | ⟨hpos, h⟩
      · left; rw [h]
      · right
        have : Int.sign (-(n : Int)) = -1 := by
          rw [Int.sign_neg, Int.sign_eq_one_of_pos (by exact_mod_cast hpos)]
        rw [this, h]
        have : -((n / 3600000000000 : Nat) : Int) + -1
            = -((n / 3600000000000 + 1 : Nat) : Int) := by
          push_cast; ring
        rw [this, Int.neg_tdiv, ← Int.ofNat_tdiv]
    · intro hz
      have : n % 3600000000000 = 0 := by
        have : ((n % 3600000000000 : Nat) : Int) = 0 := by omega
        exact_mod_cast this
      rw [hex this]
    · intro h0
      have : n = 0 := by omega
      subst this
      have := hex (by norm_num)
      subst this
      simp

theorem certLoop_ge_two (timeNow : Time) (state : ConnectionState) (i : Nat)
    (certs : List Certificate) (result : HostResult) :
    certLoop timeNow state (i + 2) certs result = .ok result := by
  induction certs generalizing i with
  | nil => rfl
  | cons v rest ih =>
    rw [certLoop]
    exact ih (i + 1)

theorem certLoop_one (timeNow : Time) (state : ConnectionState) (v : Certificate)
    (rest : List Certificate) (result : HostResult) :
    certLoop timeNow state 1 (v :: rest) result =
      (index v.Subject.Organization 0).map (fun org => { result with Issuer := org }) := by
  rw [certLoop]
  cases index v.Subject.Organization 0 with
  | error e => rfl
  | ok org =>
    simp only [ok_bind]
    exact certLoop_ge_two timeNow state 0 rest _

theorem Time.Sub_range (t u : Int) :
    (-2 ^ 63 : Int) ≤ Time.Sub t u ∧ (Time.Sub t u : Int) ≤ 2 ^ 63 := by
  have e63 : (2 : Int) ^ 63 = 9223372036854775808 := by norm_num
  show (-2 ^ 63 : Int) ≤ (if t - u > (2 ^ 63 - 1 : Int) then (2 ^ 63 - 1 : Int)
      else if t - u < (-2 ^ 63 : Int) then (-2 ^ 63 : Int) else t - u) ∧
    (if t - u > (2 ^ 63 - 1 : Int) then (2 ^ 63 - 1 : Int)
      else if t - u < (-2 ^ 63 : Int) then (-2 ^ 63 : Int) else t - u) ≤ (2 ^ 63 : Int)
  rw [e63]
  split
  · omega
  · split <;> omega

theorem Time.Sub_nonneg (t u : Int) (h : u ≤ t) : (0 : Int) ≤ Time.Sub t u := by
  have e63 : (2 : Int) ^ 63 = 9223372036854775808 := by norm_num
  show (0 : Int) ≤ (if t - u > (2 ^ 63 - 1 : Int) then (2 ^ 63 - 1 : Int)
      else if t - u < (-2 ^ 63 : Int) then (-2 ^ 63 : Int) else t - u)
  rw [e63]
  split
  · omega
  · split <;> omega

/-- The result record with which `CheckHost` starts. -/
theorem CheckHost_connected (net : Net) (domain : Str) (port : Int) (host ip0 : Str)
    (ips : List Str) (hl : net.LookupHost host = .ok (ip0 :: ips))
    (hd : net.DialTimeout (ip0 ++ ':' :: FormatInt port) = none) :
    CheckHost net domain port host =
      (certLoop net.now (net.ConnectionState (ip0 ++ ':' :: FormatInt port) domain) 0
        (net.ConnectionState (ip0 ++ ':' :: FormatInt port) domain).PeerCertificates
        { Host := domain ++ ':' :: (FormatInt port ++ ':' :: host), ExpireDays := -1,
          Err := none, Issuer := [], TLSVersion := [], ElapsedTime := 0, DNSNames := [] }).map
        (fun r => { r with ElapsedTime := net.elapsed }) := by
  unfold CheckHost callHost
  simp only [hl, index, List.get?_cons_zero, ok_bind, hd]
  cases net.Handshake (ip0 ++ ':' :: FormatInt port) domain <;>
  · simp only [ok_bind]
    cases certLoop net.now _ 0 _ _ <;> rfl

theorem certLoop_from_one (timeNow : Time) (state : ConnectionState) (certs : List Certificate)
    (result r : HostResult) (h : certLoop timeNow state 1 certs result = .ok r) :
    r = { result with Issuer := r.Issuer } := by
  cases certs with
  | nil =>
    rw [certLoop] at h
    injection h with h
    subst h
    rfl
  | cons v rest =>
    rw [certLoop_one] at h
    cases ho : index v.Subject.Organization 0 with
    | error e => rw [ho] at h; cases h
    | ok org =>
      rw [ho] at h
      injection h with h
      subst h
      rfl

/-- The label chosen by the `switch v.Version` of `CheckHost`. -/
theorem certLoop_leaf (timeNow : Time) (state : ConnectionState) (leaf : Certificate)
    (rest : List Certificate) (result r : HostResult)
    (h : certLoop timeNow state 0 (leaf :: rest) result = .ok r) :
    r.Host = result.Host ∧ r.Err = result.Err ∧ r.ElapsedTime = result.ElapsedTime ∧
    r.ExpireDays =
      F64.toInt (F64.div (Duration.Hours (Time.Sub leaf.NotAfter timeNow)) (F64.ofInt 24)) ∧
    r.DNSNames = (if leaf.DNSNames = [] then [leaf.Subject.CommonName] else leaf.DNSNames) ∧
    r.TLSVersion =
      (if leaf.Version = 0 then "SSL v3".toList
       else if leaf.Version = 1 then "TLS v1.0".toList
       else if leaf.Version = 2 then "TLS v1.1".toList
       else if leaf.Version = 3 then
         (if state.TLSUnique = none then "TLS v1.3".toList else "TLS v1.2".toList)
       else result.TLSVersion) := by
  rw [certLoop] at h
  have key := certLoop_from_one _ _ _ _ _ h
  rw [key]
  clear key h
  have hv : leaf.Version = 0 ∨ leaf.Version = 1 ∨ leaf.Version = 2 ∨ leaf.Version = 3 ∨
      (leaf.Version ≠ 0 ∧ leaf.Version ≠ 1 ∧ leaf.Version ≠ 2 ∧ leaf.Version ≠ 3) := by omega
  rcases hdn : leaf.DNSNames with _ | ⟨a, as⟩ <;>
  rcases hv with hv | hv | hv | hv | ⟨v0, v1, v2, v3⟩ <;>
  by_cases hu : state.TLSUnique = none <;>
  simp [*]

theorem certLoop_keeps_error (timeNow : Time) (state : ConnectionState)
    (certs : List Certificate) (result r : HostResult)
    (h : certLoop timeNow state 0 certs result = .ok r) :
    r.Err = result.Err ∧ r.Host = result.Host := by
  cases certs with
  | nil =>
    rw [certLoop] at h
    injection h with h
    subst h
    exact ⟨rfl, rfl⟩
  | cons v rest =>
    obtain ⟨h1, h2, _⟩ := certLoop_leaf _ _ _ _ _ _ h
    exact ⟨h2, h1⟩

theorem map_eq_ok {ε α β : Type} (x : Except ε α) (f : α → β) (b : β)
    (h : x.map f = .ok b) : ∃ a, x = .ok a ∧ b = f a := by
  cases x with
  | error e => cases h
  | ok a =>
    injection h with h
    exact ⟨a, rfl, h.symm⟩

/-- Claim C3. Every result that `CheckHost` publishes with a non-nil `Err`
has `ExpireDays = -1`, empty `Issuer`, `TLSVersion` and `DNSNames`, and the
label `domain:port:host` as `Host`. -/
theorem error_result_defaults (net : Net) (domain : Str) (port : Int) (host : Str)
    (r : HostResult) (hr : CheckHost net domain port host = .ok r) (he : r.Err ≠ none) :
    r.ExpireDays = -1 ∧ r.Issuer = [] ∧ r.TLSVersion = [] ∧ r.DNSNames = [] ∧
      r.Host = domain ++ ':' :: (FormatInt port ++ ':' :: host) := by
  cases hl : net.LookupHost host with
  | error e =>
    simp only [CheckHost, callHost, hl, ok_bind, pure_eq_ok] at hr
    injection hr with hr
    subst hr
    simp
  | ok ip =>
    cases ip with
    | nil =>
      simp [CheckHost, callHost, hl, index] at hr
    | cons ip0 ips =>
      cases hd : net.DialTimeout (ip0 ++ ':' :: FormatInt port) with
      | some e =>
        simp only [CheckHost, callHost, hl, index, List.get?_cons_zero, ok_bind, hd,
          pure_eq_ok] at hr
        injection hr with hr
        subst hr
        simp
      | none =>
        rw [CheckHost_connected net domain port host ip0 ips hl hd] at hr
        obtain ⟨r', hr', hrr⟩ := map_eq_ok _ _ _ hr
        have := (certLoop_keeps_error _ _ _ _ _ hr').1
        subst hrr
        exact absurd this he

/-- A result published after a successful handshake has a nil `Err`; with a
non-empty chain its `ExpireDays` is non-negative whenever the leaf is not yet
expired when the probe starts, and its `TLSVersion` is non-empty whenever the
leaf's `Version` is 0, 1, 2 or 3; with an empty chain `ExpireDays` is `-1`
and `TLSVersion` is empty. -/
theorem nil_error_result_fields (net : Net) (domain : Str) (port : Int) (host ip0 : Str)
    (ips : List Str) (r : HostResult)
    (hl : net.LookupHost host = .ok (ip0 :: ips))
    (hd : net.DialTimeout (ip0 ++ ':' :: FormatInt port) = none)
    (_hh : net.Handshake (ip0 ++ ':' :: FormatInt port) domain = none)
    (hr : CheckHost net domain port host = .ok r) :
    r.Err = none ∧
    (∀ leaf rest,
      (net.ConnectionState (ip0 ++ ':' :: FormatInt port) domain).PeerCertificates
        = leaf :: rest →
      (net.now ≤ leaf.NotAfter → 0 ≤ r.ExpireDays) ∧
      (0 ≤ leaf.Version ∧ leaf.Version ≤ 3 → r.TLSVersion ≠ [])) ∧
    ((net.ConnectionState (ip0 ++ ':' :: FormatInt port) domain).PeerCertificates = [] →
      r.ExpireDays = -1 ∧ r.TLSVersion = []) := by
  rw [CheckHost_connected net domain port host ip0 ips hl hd] at hr
  obtain ⟨r', hr', hrr⟩ := map_eq_ok _ _ _ hr
  subst hrr
  refine ⟨(certLoop_keeps_error _ _ _ _ _ hr').1, ?_, ?_⟩
  · intro leaf rest hc
    rw [hc] at hr'
    obtain ⟨_, _, _, hE, _, hT⟩ := certLoop_leaf _ _ _ _ _ _ hr'
    constructor
    · intro hnow
      show 0 ≤ r'.ExpireDays
      rw [hE]
      obtain ⟨h1, h2⟩ := Time.Sub_range leaf.NotAfter net.now
      exact (days_cases _ h1 h2).2.2 (Time.Sub_nonneg _ _ hnow)
    · intro hv
      show r'.TLSVersion ≠ []
      rw [hT]
      have hv' : leaf.Version = 0 ∨ leaf.Version = 1 ∨ leaf.Version = 2 ∨ leaf.Version = 3 := by
        omega
      rcases hv' with h | h | h | h <;>
      by_cases hu : (net.ConnectionState (ip0 ++ ':' :: FormatInt port) domain).TLSUnique = none <;>
      simp [h, hu]
  · intro hc
    rw [hc, certLoop] at hr'
    injection hr' with hr'
    subst hr'
    exact ⟨rfl, rfl⟩

/-- Certificates at positions 2 and above do not reach the result. -/
theorem certLoop_ignores_tail (timeNow : Time) (state : ConnectionState)
    (leaf c1 : Certificate) (rest rest' : List Certificate) (result : HostResult) :
    certLoop timeNow state 0 (leaf :: c1 :: rest) result =
      certLoop timeNow state 0 (leaf :: c1 :: rest') result := by
  rw [certLoop, certLoop, certLoop_one, certLoop_one]

/-- With a certificate at position 1 whose organization list is not empty,
a result is published and its `Issuer` is the first organization. -/
theorem CheckHost_issuer (net : Net) (domain : Str) (port : Int) (host ip0 : Str)
    (ips : List Str) (leaf c1 : Certificate) (rest : List Certificate) (org : Str)
    (orgs : List Str)
    (hl : net.LookupHost host = .ok (ip0 :: ips))
    (hd : net.DialTimeout (ip0 ++ ':' :: FormatInt port) = none)
    (hc : (net.ConnectionState (ip0 ++ ':' :: FormatInt port) domain).PeerCertificates
      = leaf :: c1 :: rest)
    (ho : c1.Subject.Organization = org :: orgs) :
    ∃ r, CheckHost net domain port host = .ok r ∧ r.Issuer = org := by
  rw [CheckHost_connected net domain port host ip0 ips hl hd, hc, certLoop, certLoop_one, ho]
  exact ⟨_, rfl, rfl⟩

/-- With a chain of one certificate a result is published and its `Issuer`
is empty. -/
theorem CheckHost_leaf_only (net : Net) (domain : Str) (port : Int) (host ip0 : Str)
    (ips : List Str) (leaf : Certificate)
    (hl : net.LookupHost host = .ok (ip0 :: ips))
    (hd : net.DialTimeout (ip0 ++ ':' :: FormatInt port) = none)
    (hc : (net.ConnectionState (ip0 ++ ':' :: FormatInt port) domain).PeerCertificates
      = [leaf]) :
    ∃ r, CheckHost net domain port host = .ok r ∧ r.Issuer = [] := by
  rw [CheckHost_connected net domain port host ip0 ips hl hd, hc, certLoop, certLoop]
  refine ⟨_, rfl, ?_⟩
  split <;> (repeat' split) <;> rfl

/-- With a certificate at position 1 whose organization list is empty, the
index expression `v.Subject.Organization[0]` panics and nothing is
published. -/
theorem CheckHost_issuer_panic (net : Net) (domain : Str) (port : Int) (host ip0 : Str)
    (ips : List Str) (leaf c1 : Certificate) (rest : List Certificate)
    (hl : net.LookupHost host = .ok (ip0 :: ips))
    (hd : net.DialTimeout (ip0 ++ ':' :: FormatInt port) = none)
    (hc : (net.ConnectionState (ip0 ++ ':' :: FormatInt port) domain).PeerCertificates
      = leaf :: c1 :: rest)
    (ho : c1.Subject.Organization = []) :
    CheckHost net domain port host = .error .indexOutOfRange := by
  rw [CheckHost_connected net domain port host ip0 ips hl hd, hc, certLoop, certLoop_one, ho]
  rfl

/-- The label of the endpoint a descriptor parses to. -/
theorem CheckHost_label (net : Net) (domain : Str) (port : Int) (host : Str) (r : HostResult)
    (hr : CheckHost net domain port host = .ok r) :
    r.Host = domain ++ ':' :: (FormatInt port ++ ':' :: host) := by
  cases hl : net.LookupHost host with
  | error e =>
    simp only [CheckHost, callHost, hl, ok_bind, pure_eq_ok] at hr
    injection hr with hr
    subst hr
    rfl
  | ok ip =>
    cases ip with
    | nil => simp [CheckHost, callHost, hl, index] at hr
    | cons ip0 ips =>
      cases hd : net.DialTimeout (ip0 ++ ':' :: FormatInt port) with
      | some e =>
        simp only [CheckHost, callHost, hl, index, List.get?_cons_zero, ok_bind, hd,
          pure_eq_ok] at hr
        injection hr with hr
        subst hr
        rfl
      | none =>
        rw [CheckHost_connected net domain port host ip0 ips hl hd] at hr
        obtain ⟨r', hr', hrr⟩ := map_eq_ok _ _ _ hr
        have := (certLoop_keeps_error _ _ _ _ _ hr').2
        subst hrr
        exact this

theorem runPipelines_ok (w : IntSize) (world : Nat → Net) (i : Nat) (hosts : List Str)
    (pub : List (Nat × HostResult)) (h : runPipelines w world i hosts = .ok pub) :
    pub.length = hosts.length ∧
      pub.map (fun x => x.2.Host) = hosts.map (endpointLabel w) := by
  induction hosts generalizing i pub with
  | nil =>
    rw [runPipelines] at h
    injection h with h
    subst h
    exact ⟨rfl, rfl⟩
  | cons dom rest ih =>
    rw [runPipelines] at h
    cases hp : ParseDomainPortHost w dom with
    | error e => rw [hp] at h; cases h
    | ok t =>
      obtain ⟨domain, port, host⟩ := t
      rw [hp] at h
      simp only [ok_bind] at h
      cases hc : CheckHost (world i) domain port host with
      | error e => rw [hc] at h; cases h
      | ok r =>
        rw [hc] at h
        simp only [ok_bind] at h
        cases hrest : runPipelines w world (i + 1) rest with
        | error e => rw [hrest] at h; cases h
        | ok rs =>
          rw [hrest] at h
          simp only [ok_bind, pure_eq_ok] at h
          injection h with h
          subst h
          obtain ⟨h1, h2⟩ := ih (i + 1) rs hrest
          refine ⟨by simp [h1], ?_⟩
          simp only [List.map_cons, h2, endpointLabel, hp]
          rw [CheckHost_label _ _ _ _ _ hc]

/-- Whenever `CheckHostsParallel` returns, it returns one result per
descriptor, and the `Host` labels are those of the parsed descriptors up to
order. -/
theorem CheckHostsParallel_cardinality (w : IntSize) (world : Nat → Net)
    (completion : Nat → Nat) (hosts : List Str) (res : List HostResult)
    (h : CheckHostsParallel w world completion hosts = .ok res) :
    res.length = hosts.length ∧
      (res.map HostResult.Host).Perm (hosts.map (endpointLabel w)) := by
  unfold CheckHostsParallel at h
  cases hp : runPipelines w world 0 hosts with
  | error e => rw [hp] at h; cases h
  | ok pub =>
    rw [hp] at h
    simp only [ok_bind, pure_eq_ok] at h
    injection h with h
    subst h
    obtain ⟨h1, h2⟩ := runPipelines_ok w world 0 hosts pub hp
    have hperm := List.perm_insertionSort (fun a b : Nat × HostResult =>
      completion a.1 ≤ completion b.1) pub
    constructor
    · rw [List.length_map, hperm.length_eq, h1]
    · rw [← h2, List.map_map]
      exact hperm.map _

theorem runPipelines_publishes (w : IntSize) (world : Nat → Net) (i : Nat) (hosts : List Str)
    (h : ∀ j dom, hosts.get? j = some dom → ∀ domain port host,
      ParseDomainPortHost w dom = .ok (domain, port, host) →
      ∃ r, CheckHost (world (i + j)) domain port host = .ok r) :
    ∃ pub, runPipelines w world i hosts = .ok pub := by
  induction hosts generalizing i with
  | nil => exact ⟨[], rfl⟩
  | cons dom rest ih =>
    obtain ⟨domain, host, hp⟩ := ParseDomainPortHost_total w dom
    obtain ⟨r, hr⟩ := h 0 dom rfl _ _ _ hp
    obtain ⟨rs, hrs⟩ := ih (i + 1) (fun j dom' hj domain' port' host' hp' => by
      have := h (j + 1) dom' (by simpa using hj) domain' port' host' hp'
      rwa [show i + (j + 1) = i + 1 + j by omega] at this)
    refine ⟨(i, r) :: rs, ?_⟩
    rw [runPipelines, hp]
    simp only [ok_bind]
    rw [Nat.add_zero] at hr
    rw [hr]
    simp only [ok_bind, hrs, pure_eq_ok]

/-- When every pipeline publishes its result, `CheckHostsParallel` returns. -/
theorem CheckHostsParallel_returns (w : IntSize) (world : Nat → Net)
    (completion : Nat → Nat) (hosts : List Str)
    (h : ∀ j dom, hosts.get? j = some dom → ∀ domain port host,
      ParseDomainPortHost w dom = .ok (domain, port, host) →
      ∃ r, CheckHost (world j) domain port host = .ok r) :
    ∃ res, CheckHostsParallel w world completion hosts = .ok res := by
  obtain ⟨pub, hpub⟩ := runPipelines_publishes w world 0 hosts (fun j dom hj d p hst hp => by
    rw [Nat.zero_add]; exact h j dom hj d p hst hp)
  exact ⟨_, by rw [CheckHostsParallel, hpub]; rfl⟩

/-- A resolution failure reaches the caller and the published result. -/
theorem callHost_lookup_error (net : Net) (domain : Str) (port : Int) (host : Str) (e : Error)
    (hl : net.LookupHost host = .error e) :
    callHost net domain port host = .ok (none, some e) ∧
      (CheckHost net domain port host).map HostResult.Err = .ok (some e) := by
  simp [CheckHost, callHost, hl, Except.map]

/-- A connect failure or timeout reaches the caller and the published
result. -/
theorem callHost_dial_error (net : Net) (domain : Str) (port : Int) (host ip0 : Str)
    (ips : List Str) (e : Error) (hl : net.LookupHost host = .ok (ip0 :: ips))
    (hd : net.DialTimeout (ip0 ++ ':' :: FormatInt port) = some e) :
    callHost net domain port host = .ok (none, some e) ∧
      (CheckHost net domain port host).map HostResult.Err = .ok (some e) := by
  simp [CheckHost, callHost, hl, hd, index, Except.map]

/-- A handshake failure does not: `callHost` returns the connection and a nil
error, and every published result has a nil `Err`. -/
theorem callHost_handshake_error (net : Net) (domain : Str) (port : Int) (host ip0 : Str)
    (ips : List Str) (e : Error) (hl : net.LookupHost host = .ok (ip0 :: ips))
    (hd : net.DialTimeout (ip0 ++ ':' :: FormatInt port) = none)
    (hh : net.Handshake (ip0 ++ ':' :: FormatInt port) domain = some e) :
    callHost net domain port host =
        .ok (some ⟨net.ConnectionState (ip0 ++ ':' :: FormatInt port) domain⟩, none) ∧
      ∀ r, CheckHost net domain port host = .ok r → r.Err = none := by
  constructor
  · simp [callHost, hl, hd, hh, index]
  · intro r hr
    rw [CheckHost_connected net domain port host ip0 ips hl hd] at hr
    obtain ⟨r', hr', hrr⟩ := map_eq_ok _ _ _ hr
    subst hrr
    exact (certLoop_keeps_error _ _ _ _ _ hr').1

/-- Claim C1 fails on the code. When resolution and connect succeed and the
handshake fails, `callHost` returns the connection with a nil error, and the
result that `CheckHost` publishes has a nil `Err`. -/
theorem callHost_drops_handshake_error :
    callHost (sampleNet (some ⟨"remote error: tls: handshake failure"⟩) ⟨0, [], none⟩ 0)
        "a.com".toList 443 "a.com".toList = .ok (some ⟨⟨0, [], none⟩⟩, none) ∧
    CheckHost (sampleNet (some ⟨"remote error: tls: handshake failure"⟩) ⟨0, [], none⟩ 0)
        "a.com".toList 443 "a.com".toList =
      .ok { Host := "a.com:443:a.com".toList, ExpireDays := -1, Err := none, Issuer := [],
            TLSVersion := [], ElapsedTime := 5, DNSNames := [] } := by
  decide

theorem error_result_defaults_witness :
    (CheckHost sampleNetUnresolved "a.com".toList 443 "a.com".toList = .ok sampleFailure ∧
      sampleFailure.Err ≠ none) ∧
    (sampleFailure.ExpireDays = -1 ∧ sampleFailure.Issuer = [] ∧ sampleFailure.TLSVersion = [] ∧
      sampleFailure.DNSNames = [] ∧
      sampleFailure.Host = "a.com".toList ++ ':' :: (FormatInt 443 ++ ':' :: "a.com".toList)) :=
  ⟨⟨by decide, by decide⟩,
    error_result_defaults sampleNetUnresolved "a.com".toList 443 "a.com".toList sampleFailure
      (by decide) (by decide)⟩

/-- Claim C4 fails on the code. With one descriptor whose peer sends a chain
with a certificate at position 1 that has no organization, the pipeline
panics before it publishes and `CheckHostsParallel` returns nothing. -/
theorem CheckHostsParallel_missing_result :
    CheckHostsParallel .w64
      (fun _ => sampleNet none ⟨771, [sampleLeaf (48 * Hour), sampleIssuer []], some [1]⟩ 0)
      (fun i => i) ["a.com".toList] = .error .indexOutOfRange := by
  decide

theorem isDigit_not_special (c : Char) (h : c.isDigit = true) :
    c ≠ ':' ∧ c ≠ '+' ∧ c ≠ '-' := by
  refine ⟨?_, ?_, ?_⟩ <;>
  · intro hc
    subst hc
    exact absurd h (by decide)

theorem decimalDigits_some (ds : Str) (n : Nat) (h : decimalDigits ds = some n) :
    ds ≠ [] ∧ ds.all Char.isDigit = true := by
  unfold decimalDigits at h
  by_cases hc : ds = [] ∨ ¬ ds.all Char.isDigit = true
  · rw [if_pos hc] at h; cases h
  · push_neg at hc
    exact hc

theorem digits_no_colon (ds : Str) (h : ds.all Char.isDigit = true) : ':' ∉ ds := by
  intro hm
  rw [List.all_eq_true] at h
  exact (isDigit_not_special _ (h _ hm)).1 rfl

theorem decimalValue_of_digits (ds : Str) (n : Nat) (h : decimalDigits ds = some n) :
    decimalValue ds = some (n : Int) := by
  obtain ⟨hne, hall⟩ := decimalDigits_some ds n h
  cases ds with
  | nil => exact absurd rfl hne
  | cons c cs =>
    have hc : c.isDigit = true := by
      rw [List.all_eq_true] at hall
      exact hall c (by simp)
    obtain ⟨_, hp, hm⟩ := isDigit_not_special c hc
    unfold decimalValue
    split
    · rename_i heq; simp at heq; exact absurd heq.1 hp
    · rename_i heq; simp at heq; exact absurd heq.1 hm
    · rw [h]; rfl

theorem Atoi_of_decimalDigits (w : IntSize) (ds : Str) (n : Nat)
    (h : decimalDigits ds = some n) (hn : n < 2 ^ (w.bits - 1)) :
    Atoi w ds = .ok (n : Int) := by
  have ht := Atoi_toOption w ds
  rw [decimalValue_of_digits ds n h] at ht
  have hr : -2 ^ (w.bits - 1) ≤ (n : Int) ∧ (n : Int) < 2 ^ (w.bits - 1) := by
    constructor
    · have : (0 : Int) ≤ 2 ^ (w.bits - 1) := by positivity
      omega
    · exact_mod_cast hn
  simp only [Option.some_bind, hr, and_self, if_true] at ht
  cases hA : Atoi w ds with
  | error e => rw [hA] at ht; cases ht
  | ok v =>
    rw [hA] at ht
    simp only [Except.toOption] at ht
    injection ht with ht
    rw [ht]

theorem decimalDigits_FormatInt (w : IntSize) (n : Nat) (hn : n < 2 ^ (w.bits - 1)) :
    decimalDigits (FormatInt (n : Int)) = some n := by
  have hfmt : FormatInt (n : Int) = fmtDigits n n [] := by simp [FormatInt]
  obtain ⟨d, cs, hd⟩ := fmtDigits_head n n []
  obtain ⟨hp, hm⟩ := digitChar_not_sign d
  have ht := Atoi_toOption w (FormatInt (n : Int))
  rw [Atoi_FormatInt w n hn] at ht
  have hv : decimalValue (FormatInt (n : Int)) =
      (decimalDigits (FormatInt (n : Int))).map Int.ofNat := by
    rw [hfmt, hd]
    unfold decimalValue
    split
    · rename_i heq; simp at heq; exact absurd heq.1 hp
    · rename_i heq; simp at heq; exact absurd heq.1 hm
    · rfl
  rw [hv] at ht
  cases hdd : decimalDigits (FormatInt (n : Int)) with
  | none => rw [hdd] at ht; cases ht
  | some m =>
    rw [hdd] at ht
    simp only [Except.toOption, Option.map_some', Option.some_bind] at ht
    by_cases hr : -2 ^ (w.bits - 1) ≤ Int.ofNat m ∧ Int.ofNat m < 2 ^ (w.bits - 1)
    · rw [if_pos hr] at ht
      injection ht with ht
      have : (n : Int) = (m : Int) := ht
      have : n = m := by exact_mod_cast this
      rw [this]
    · rw [if_neg hr] at ht; cases ht

/-- Claim C5. For a target `t` and a connect host `h` without a colon and a
port `n` within the range of `int` written as the decimal digit string `ds`,
`ParseDomainPortHost` maps `t` to `(t, 443, t)`, `t:ds` to `(t, n, t)` and
`t:ds:h` to `(t, n, h)`; the rendering of `n` by the verb `%d`, which
`CheckHost` puts in the endpoint label, is such a digit string. -/
theorem ParseDomainPortHost_wellformed (w : IntSize) (t h ds : Str) (n : Nat)
    (ht : ':' ∉ t) (hh : ':' ∉ h) (hds : decimalDigits ds = some n)
    (hn : n < 2 ^ (w.bits - 1)) :
    ParseDomainPortHost w t = .ok (t, 443, t) ∧
    ParseDomainPortHost w (t ++ ':' :: ds) = .ok (t, (n : Int), t) ∧
    ParseDomainPortHost w (t ++ ':' :: (ds ++ ':' :: h)) = .ok (t, (n : Int), h) ∧
    decimalDigits (FormatInt (n : Int)) = some n := by
  have hd : ':' ∉ ds := digits_no_colon ds (decimalDigits_some ds n hds).2
  have ha := Atoi_of_decimalDigits w ds n hds hn
  refine ⟨?_, ?_, ?_, decimalDigits_FormatInt w n hn⟩
  · simp [ParseDomainPortHost, Split_no_colon t ht, index]
  · simp [ParseDomainPortHost, Split_append_colon t _ ht, Split_no_colon _ hd, index, ha]
  · simp [ParseDomainPortHost, Split_append_colon t _ ht, Split_append_colon _ h hd,
      Split_no_colon h hh, index, ha]

theorem ParseDomainPortHost_wellformed_witness :
    (':' ∉ "a.com".toList ∧ ':' ∉ "10.0.0.1".toList ∧
      decimalDigits "8443".toList = some 8443 ∧ 8443 < 2 ^ (IntSize.w64.bits - 1)) ∧
    (ParseDomainPortHost .w64 "a.com".toList = .ok ("a.com".toList, 443, "a.com".toList) ∧
     ParseDomainPortHost .w64 ("a.com".toList ++ ':' :: "8443".toList) =
       .ok ("a.com".toList, ((8443 : Nat) : Int), "a.com".toList) ∧
     ParseDomainPortHost .w64
       ("a.com".toList ++ ':' :: ("8443".toList ++ ':' :: "10.0.0.1".toList)) =
       .ok ("a.com".toList, ((8443 : Nat) : Int), "10.0.0.1".toList) ∧
     decimalDigits (FormatInt ((8443 : Nat) : Int)) = some 8443) :=
  ⟨⟨by decide, by decide, by decide, by decide⟩,
    ParseDomainPortHost_wellformed .w64 "a.com".toList "10.0.0.1".toList "8443".toList 8443
      (by decide) (by decide) (by decide) (by decide)⟩

/-- Claim C6 fails as stated. The second field `-5` parses, and the port
returned for `a.com:-5` is the negative number `-5`, not 443. -/
theorem ParseDomainPortHost_negative_port :
    ParseDomainPortHost .w64 "a.com:-5".toList = .ok ("a.com".toList, -5, "a.com".toList) ∧
    ParseDomainPortHost .w32 "a.com:-5".toList = .ok ("a.com".toList, -5, "a.com".toList) := by
  decide

/-- Claim C6, amended. For every descriptor the parser returns a triple, and
its port is the value of the second field when that field is present and is
an optionally signed decimal numeral within the range of `int`, and 443 in
every other case. -/
theorem ParseDomainPortHost_port (w : IntSize) (info : Str) :
    ∃ domain host, ParseDomainPortHost w info = .ok (domain, portRule w info, host) :=
  ParseDomainPortHost_total w info

/-- Claim C8 fails on the code. Whatever protocol version the connection
state reports, a leaf certificate of X.509 version 1 yields the label
`TLS v1.0`: the label is read from the certificate, not from the negotiated
version. -/
theorem TLSVersion_from_certificate_version (ver : Nat) :
    (CheckHost (sampleNet none
        ⟨ver, [{ sampleLeaf (48 * Hour) with Version := 1 }], some [1]⟩ 0)
      "a.com".toList 443 "a.com".toList).map HostResult.TLSVersion = .ok "TLS v1.0".toList := by
  rfl

/-- Claim C9 fails on the code. With a certificate at position 1 whose
organization list is empty, `CheckHost` panics with an index out of range and
publishes no result. -/
theorem CheckHost_issuer_index_panic :
    CheckHost (sampleNet none ⟨771, [sampleLeaf (48 * Hour), sampleIssuer []], some [1]⟩ 0)
      "a.com".toList 443 "a.com".toList = .error .indexOutOfRange := by
  decide

/-- The day count of a non-negative duration `d` that ends at least 2048 ns
before the next full hour is the floor of its whole hours over 24: neither
rounding reaches the next integer. -/
theorem days_tight (d : Nat) (hd : d ≤ 2 ^ 63) (hns : d % 3600000000000 + 2048 ≤ 3600000000000) :
    F64.toInt (F64.div (Duration.Hours (d : Int)) (F64.ofInt 24)) =
      ((d / 3600000000000 / 24 : Nat) : Int) := by
  have e63 : (2 : Nat) ^ 63 = 9223372036854775808 := by norm_num
  have e53 : (2 : Nat) ^ 53 = 9007199254740992 := by norm_num
  have e31 : (2 : Nat) ^ 31 = 2147483648 := by norm_num
  have e36 : (2 : Nat) ^ 36 = 68719476736 := by norm_num
  have hhour : d / 3600000000000 < 2562048 := by
    rw [Nat.div_lt_iff_lt_mul (by norm_num)]; omega
  generalize hh : d / 3600000000000 = hour at *
  generalize hn : d % 3600000000000 = nsec at *
  obtain ⟨hb, hbpos, hhb⟩ := F64.ofInt_natCast hour (by omega)
  obtain ⟨nb, nbpos, hnb⟩ := F64.ofInt_natCast nsec (by omega)
  obtain ⟨cb, cbpos, hcb⟩ := F64.ofInt_natCast 3600000000000 (by omega)
  obtain ⟨bb, bbpos, hbb⟩ := F64.ofInt_natCast 24 (by omega)
  have hC : (60 * 60 * 10 ^ 9 : Int) = ((3600000000000 : Nat) : Int) := by norm_num
  have h24 : (24 : Int) = ((24 : Nat) : Int) := by norm_num
  unfold Duration.Hours
  simp only [Hour_eq, ← Int.ofNat_tdiv, ← Int.ofNat_tmod, hh, hn, hC]
  rw [h24, hhb, hnb, hcb, hbb,
    F64.div_natCast _ _ _ _ (Nat.mul_pos (by norm_num) cbpos)]
  -- the fraction of an hour, at most `1 - 2^-31`
  have hf2 := roundNearestEven_snd_pos (nsec * nb * cb) (nb * (3600000000000 * cb))
  have hq1 : 1 ≤ nb * (3600000000000 * cb) := Nat.mul_pos nbpos (Nat.mul_pos (by norm_num) cbpos)
  have hfu := roundNearestEven_le (nsec * nb * cb) (nb * (3600000000000 * cb))
    2147483647 31 hq1 (by omega) (by
      have : nsec * 2 ^ 31 ≤ 2147483647 * 3600000000000 := by omega
      calc nsec * nb * cb * 2 ^ 31 = (nsec * 2 ^ 31) * (nb * cb) := by ring
        _ ≤ (2147483647 * 3600000000000) * (nb * cb) := Nat.mul_le_mul_right _ this
        _ = 2147483647 * (nb * (3600000000000 * cb)) := by ring)
  generalize (roundNearestEven (nsec * nb * cb) (nb * (3600000000000 * cb))).1 = f1 at *
  generalize (roundNearestEven (nsec * nb * cb) (nb * (3600000000000 * cb))).2 = f2 at *
  -- the hour count, between `hour` and `hour + 1 - 2^-31`
  rw [F64.add_natCast]
  have hq2 : 1 ≤ hb * f2 := Nat.mul_pos hbpos hf2
  have hsl := roundNearestEven_ge (hour * hb * f2 + f1 * hb) (hb * f2) hour 0 hq2 (by omega) (by
    simp only [pow_zero, Nat.mul_one]
    calc hour * (hb * f2) = hour * hb * f2 := by ring
      _ ≤ hour * hb * f2 + f1 * hb := Nat.le_add_right _ _)
  have hsu := roundNearestEven_le (hour * hb * f2 + f1 * hb) (hb * f2)
    (hour * 2147483648 + 2147483647) 31 hq2 (by omega) (by
      calc (hour * hb * f2 + f1 * hb) * 2 ^ 31
          = hb * (hour * 2 ^ 31 * f2) + hb * (f1 * 2 ^ 31) := by ring
        _ ≤ hb * (hour * 2 ^ 31 * f2) + hb * (2147483647 * f2) :=
          Nat.add_le_add_left (Nat.mul_le_mul_left _ hfu) _
        _ = (hour * 2147483648 + 2147483647) * (hb * f2) := by rw [e31]; ring)
  have hs2 := roundNearestEven_snd_pos (hour * hb * f2 + f1 * hb) (hb * f2)
  simp only [pow_zero, Nat.mul_one] at hsl
  generalize (roundNearestEven (hour * hb * f2 + f1 * hb) (hb * f2)).1 = s1 at *
  generalize (roundNearestEven (hour * hb * f2 + f1 * hb) (hb * f2)).2 = s2 at *
  -- the day count, between `hour / 24` and `hour / 24 + 1 - 2^-36`
  rw [F64.div_natCast _ _ _ _ (Nat.mul_pos (by norm_num) bbpos), F64.toInt_natCast]
  have hq3 : 1 ≤ s2 * (24 * bb) := Nat.mul_pos hs2 (Nat.mul_pos (by norm_num) bbpos)
  have hxl := roundNearestEven_ge (s1 * bb) (s2 * (24 * bb)) (hour / 24) 0 hq3 (by omega) (by
    simp only [pow_zero, Nat.mul_one]
    have : hour / 24 * 24 ≤ hour := Nat.div_mul_le_self _ _
    calc hour / 24 * (s2 * (24 * bb)) = (hour / 24 * 24) * s2 * bb := by ring
      _ ≤ hour * s2 * bb := Nat.mul_le_mul_right _ (Nat.mul_le_mul_right _ this)
      _ ≤ s1 * bb := Nat.mul_le_mul_right _ hsl)
  have hxu := roundNearestEven_le (s1 * bb) (s2 * (24 * bb))
    (hour / 24 * 68719476736 + 68719476735) 36 hq3 (by omega) (by
      have : (hour * 2147483648 + 2147483647) * 32
          ≤ (hour / 24 * 68719476736 + 68719476735) * 24 := by omega
      calc s1 * bb * 2 ^ 36 = (s1 * 2 ^ 31) * (32 * bb) := by rw [e31, e36]; ring
        _ ≤ ((hour * 2147483648 + 2147483647) * s2) * (32 * bb) := Nat.mul_le_mul_right _ hsu
        _ = ((hour * 2147483648 + 2147483647) * 32) * (s2 * bb) := by ring
        _ ≤ ((hour / 24 * 68719476736 + 68719476735) * 24) * (s2 * bb) :=
          Nat.mul_le_mul_right _ this
        _ = (hour / 24 * 68719476736 + 68719476735) * (s2 * (24 * bb)) := by ring)
  have hx2 := roundNearestEven_snd_pos (s1 * bb) (s2 * (24 * bb))
  simp only [pow_zero, Nat.mul_one] at hxl
  generalize (roundNearestEven (s1 * bb) (s2 * (24 * bb))).1 = x1 at *
  generalize (roundNearestEven (s1 * bb) (s2 * (24 * bb))).2 = x2 at *
  have hlo : hour / 24 ≤ x1 / x2 := by
    rw [Nat.le_div_iff_mul_le hx2]; exact hxl
  have hhi : x1 / x2 < hour / 24 + 1 := by
    rw [Nat.div_lt_iff_lt_mul hx2]
    have h36 : x1 * 68719476736 < (hour / 24 + 1) * x2 * 68719476736 := by
      calc x1 * 68719476736 = x1 * 2 ^ 36 := by rw [e36]
        _ ≤ (hour / 24 * 68719476736 + 68719476735) * x2 := hxu
        _ < (hour / 24 * 68719476736 + 68719476736) * x2 :=
          Nat.mul_lt_mul_of_pos_right (by omega) hx2
        _ = (hour / 24 + 1) * x2 * 68719476736 := by ring
    exact Nat.lt_of_mul_lt_mul_right h36
  have : x1 / x2 = hour / 24 := by omega
  rw [this]

/-- The day count of a non-negative duration against the floor of its whole
days: equal whenever the duration ends at least 2048 ns before the next whole
day, and never more than one above. -/
theorem days_floor_nat (n : Nat) (hn : n ≤ 2 ^ 63) :
    ∃ e : Nat, F64.toInt (F64.div (Duration.Hours (n : Int)) (F64.ofInt 24)) = (e : Int) ∧
      (e = n / 86400000000000 ∨ e = n / 86400000000000 + 1) ∧
      (n % 86400000000000 + 2048 ≤ 86400000000000 → e = n / 86400000000000) := by
  obtain ⟨e, he, hcase, _⟩ := days_nat n hn
  refine ⟨e, he, ?_, ?_⟩
  · rcases hcase with h | ⟨_, h⟩
    · left; omega
    · omega
  · intro hw
    by_cases h23 : n / 3600000000000 % 24 = 23
    · have hns : n % 3600000000000 + 2048 ≤ 3600000000000 := by omega
      have := days_tight n hn hns
      rw [he] at this
      have : e = n / 3600000000000 / 24 := by exact_mod_cast this
      omega
    · rcases hcase with h | ⟨_, h⟩
      · omega
      · omega

theorem day_eq : (24 * Hour : Int) = ((86400000000000 : Nat) : Int) := by
  norm_num [Hour]

/-- Claim C2 fails on the code. After a failed handshake (here the peer's
certificate has expired) `CheckHost` publishes a result with a nil `Err`
whose `ExpireDays` is `-1` and whose `TLSVersion` is empty. -/
theorem nil_error_after_failed_handshake :
    (CheckHost
        (sampleNet (some ⟨"x509: certificate has expired or is not yet valid"⟩) ⟨0, [], none⟩ 0)
        "a.com".toList 443 "a.com".toList).map (fun r => (r.Err, r.ExpireDays, r.TLSVersion)) =
      .ok (none, -1, []) := by
  decide

set_option maxRecDepth 100000 in
set_option exponentiation.threshold 2000 in
/-- Claim C7 fails as stated. A leaf that expires one nanosecond short of 171
days after the probe started gives `ExpireDays = 171` where the floor is 170,
and a leaf that expires ten days beyond the range of `time.Duration` gives
106751 where the floor is 106761. -/
theorem ExpireDays_rounding :
    ((CheckHost (sampleNet none ⟨771, [sampleLeaf (4104 * Hour - 1)], some [1]⟩ 0)
        "a.com".toList 443 "a.com".toList).map HostResult.ExpireDays = .ok 171 ∧
      Int.fdiv (4104 * Hour - 1 - 0) (24 * Hour) = 170) ∧
    ((CheckHost (sampleNet none ⟨771, [sampleLeaf (2 ^ 63 + 240 * Hour)], some [1]⟩ 0)
        "a.com".toList 443 "a.com".toList).map HostResult.ExpireDays = .ok 106751 ∧
      Int.fdiv (2 ^ 63 + 240 * Hour - 0) (24 * Hour) = 106761) := by
  decide

/-- Claim C7, amended. After a successful handshake with a non-empty chain
whose leaf is not expired when the probe starts, with `d` the difference
`NotAfter - start` saturated to the range of `time.Duration`, `ExpireDays` is
the floor of `d` in whole days whenever `d` ends at least 2048 ns before the
next whole number of days, and otherwise that floor or one more. -/
theorem ExpireDays_floor (net : Net) (domain : Str) (port : Int) (host ip0 : Str)
    (ips : List Str) (leaf : Certificate) (rest : List Certificate) (r : HostResult)
    (hl : net.LookupHost host = .ok (ip0 :: ips))
    (hd : net.DialTimeout (ip0 ++ ':' :: FormatInt port) = none)
    (_hh : net.Handshake (ip0 ++ ':' :: FormatInt port) domain = none)
    (hc : (net.ConnectionState (ip0 ++ ':' :: FormatInt port) domain).PeerCertificates
      = leaf :: rest)
    (hvalid : net.now ≤ leaf.NotAfter)
    (hr : CheckHost net domain port host = .ok r) :
    (r.ExpireDays = Int.fdiv (Time.Sub leaf.NotAfter net.now) (24 * Hour) ∨
      r.ExpireDays = Int.fdiv (Time.Sub leaf.NotAfter net.now) (24 * Hour) + 1) ∧
    (Int.fmod (Time.Sub leaf.NotAfter net.now) (24 * Hour) + 2048 ≤ 24 * Hour →
      r.ExpireDays = Int.fdiv (Time.Sub leaf.NotAfter net.now) (24 * Hour)) := by
  rw [CheckHost_connected net domain port host ip0 ips hl hd] at hr
  obtain ⟨r', hr', hrr⟩ := map_eq_ok _ _ _ hr
  subst hrr
  rw [hc] at hr'
  obtain ⟨_, _, _, hE, _, _⟩ := certLoop_leaf _ _ _ _ _ _ hr'
  show (r'.ExpireDays = _ ∨ r'.ExpireDays = _) ∧ (_ → r'.ExpireDays = _)
  rw [hE]
  have h0 := Time.Sub_nonneg leaf.NotAfter net.now hvalid
  obtain ⟨_, h2⟩ := Time.Sub_range leaf.NotAfter net.now
  generalize Time.Sub leaf.NotAfter net.now = d at *
  obtain ⟨n, rfl⟩ := Int.eq_ofNat_of_zero_le h0
  have e63 : (2 : Int) ^ 63 = ((2 ^ 63 : Nat) : Int) := by norm_num
  have hn : n ≤ 2 ^ 63 := by rw [e63] at h2; exact_mod_cast h2
  obtain ⟨e, he, hcase, htight⟩ := days_floor_nat n hn
  rw [he, day_eq, ← Int.ofNat_fdiv, ← Int.ofNat_fmod]
  constructor
  · rcases hcase with h | h
    · left; rw [h]
    · right; rw [h]; push_cast; rfl
  · intro hw
    have : n % 86400000000000 + 2048 ≤ 86400000000000 := by exact_mod_cast hw
    rw [htight this]

set_option maxRecDepth 100000 in
set_option exponentiation.threshold 2000 in
theorem sample_probe_short :
    CheckHost (sampleNet none ⟨771, [sampleLeaf (47 * Hour + 1)], some [1]⟩ 0)
      "a.com".toList 443 "a.com".toList = .ok { sampleResult with ExpireDays := 1 } := by
  decide

theorem ExpireDays_floor_witness :
    (CheckHost (sampleNet none ⟨771, [sampleLeaf (47 * Hour + 1)], some [1]⟩ 0)
        "a.com".toList 443 "a.com".toList = .ok { sampleResult with ExpireDays := 1 } ∧
      (0 : Int) ≤ 47 * Hour + 1 ∧
      Int.fmod (Time.Sub (47 * Hour + 1) 0) (24 * Hour) + 2048 ≤ 24 * Hour) ∧
    (1 : Int) = Int.fdiv (Time.Sub (47 * Hour + 1) 0) (24 * Hour) :=
  ⟨⟨sample_probe_short, by decide, by decide⟩,
    (ExpireDays_floor (sampleNet none ⟨771, [sampleLeaf (47 * Hour + 1)], some [1]⟩ 0)
      "a.com".toList 443 "a.com".toList "10.0.0.1".toList [] (sampleLeaf (47 * Hour + 1)) []
      { sampleResult with ExpireDays := 1 } rfl rfl rfl rfl (by decide) sample_probe_short).2
      (by decide)⟩

/-- Claim C10. After a successful handshake with a non-empty chain, every
published result has as `DNSNames` the leaf's subject-alternative-name list,
or the one-element list of the leaf's common name when that list is empty,
and a result is published whenever the chain has no certificate at position 1
or that certificate names an organization; with an empty chain a result is
published with empty `DNSNames`, `ExpireDays = -1`, empty `TLSVersion` and a
nil `Err`. -/
theorem DNSNames_fallback (net : Net) (domain : Str) (port : Int) (host ip0 : Str)
    (ips : List Str)
    (hl : net.LookupHost host = .ok (ip0 :: ips))
    (hd : net.DialTimeout (ip0 ++ ':' :: FormatInt port) = none)
    (_hh : net.Handshake (ip0 ++ ':' :: FormatInt port) domain = none) :
    (∀ leaf rest,
      (net.ConnectionState (ip0 ++ ':' :: FormatInt port) domain).PeerCertificates
        = leaf :: rest →
      (∀ c1 rest', rest = c1 :: rest' → c1.Subject.Organization ≠ []) →
      ∃ r, CheckHost net domain port host = .ok r ∧
        r.DNSNames =
          (if leaf.DNSNames = [] then [leaf.Subject.CommonName] else leaf.DNSNames)) ∧
    (∀ leaf rest r,
      (net.ConnectionState (ip0 ++ ':' :: FormatInt port) domain).PeerCertificates
        = leaf :: rest →
      CheckHost net domain port host = .ok r →
      r.DNSNames = (if leaf.DNSNames = [] then [leaf.Subject.CommonName] else leaf.DNSNames)) ∧
    ((net.ConnectionState (ip0 ++ ':' :: FormatInt port) domain).PeerCertificates = [] →
      ∃ r, CheckHost net domain port host = .ok r ∧
        r.DNSNames = [] ∧ r.ExpireDays = -1 ∧ r.TLSVersion = [] ∧ r.Err = none) := by
  have hcond : ∀ leaf rest r,
      (net.ConnectionState (ip0 ++ ':' :: FormatInt port) domain).PeerCertificates
        = leaf :: rest →
      CheckHost net domain port host = .ok r →
      r.DNSNames =
        (if leaf.DNSNames = [] then [leaf.Subject.CommonName] else leaf.DNSNames) := by
    intro leaf rest r hc hr
    rw [CheckHost_connected net domain port host ip0 ips hl hd] at hr
    obtain ⟨r', hr', hrr⟩ := map_eq_ok _ _ _ hr
    subst hrr
    rw [hc] at hr'
    obtain ⟨_, _, _, _, hD, _⟩ := certLoop_leaf _ _ _ _ _ _ hr'
    exact hD
  refine ⟨?_, hcond, ?_⟩
  · intro leaf rest hc horg
    cases rest with
    | nil =>
      obtain ⟨r, hr, _⟩ := CheckHost_leaf_only net domain port host ip0 ips leaf hl hd hc
      exact ⟨r, hr, hcond leaf [] r hc hr⟩
    | cons c1 rest' =>
      cases ho : c1.Subject.Organization with
      | nil => exact absurd ho (horg c1 rest' rfl)
      | cons org orgs =>
        obtain ⟨r, hr, _⟩ :=
          CheckHost_issuer net domain port host ip0 ips leaf c1 rest' org orgs hl hd hc ho
        exact ⟨r, hr, hcond leaf (c1 :: rest') r hc hr⟩
  · intro hc
    rw [CheckHost_connected net domain port host ip0 ips hl hd, hc, certLoop]
    exact ⟨_, rfl, rfl, rfl, rfl, rfl⟩

theorem DNSNames_fallback_witness :
    (∃ r, CheckHost (sampleNet none ⟨771, [sampleLeafNoSAN (48 * Hour)], some [1]⟩ 0)
        "a.com".toList 443 "a.com".toList = .ok r ∧ r.DNSNames = ["a.com".toList]) ∧
    (∃ r, CheckHost
        (sampleNet none
          ⟨771, [sampleLeaf (48 * Hour), sampleIssuer ["Example Org".toList]], some [1]⟩ 0)
        "a.com".toList 443 "a.com".toList = .ok r ∧
      r.DNSNames = ["a.com".toList, "www.a.com".toList]) :=
  ⟨(DNSNames_fallback (sampleNet none ⟨771, [sampleLeafNoSAN (48 * Hour)], some [1]⟩ 0)
      "a.com".toList 443 "a.com".toList "10.0.0.1".toList [] rfl rfl rfl).1
      (sampleLeafNoSAN (48 * Hour)) [] rfl (fun _ _ h => by cases h),
    (DNSNames_fallback
      (sampleNet none
        ⟨771, [sampleLeaf (48 * Hour), sampleIssuer ["Example Org".toList]], some [1]⟩ 0)
      "a.com".toList 443 "a.com".toList "10.0.0.1".toList [] rfl rfl rfl).1
      (sampleLeaf (48 * Hour)) [sampleIssuer ["Example Org".toList]] rfl
      (fun c1 rest' h => by
        injection h with h1 h2
        subst h1
        decide)⟩

end Checkcert
